import Mathlib

/-!
Verification development for the UL1400-1 let-go analyzer.

The Python source is shallowly embedded over exact rationals:
  * a waveform (Python `dict[float, float]`) is a `List (ℚ × ℚ)` of
    (time, value) entries with pairwise distinct keys;
  * a region is a `(start, end)` pair of rationals;
  * Python `None` arguments/results are `Option`;
  * a Python function that may `raise` returns `Except PyError _`, with one
    constructor per distinct error situation in the source;
  * decimal literals (`4.21`, `33.3`, `0.89`, ...) are read as the exact
    rationals they denote;
  * the only irrational constant, `5 * math.sqrt(2)`, enters only through
    the comparison `peak_ma <= 5 * sqrt 2`, which is embedded as the
    decidable rational test `peak_ma < 0 ∨ peak_ma ^ 2 ≤ 50` and proved
    equivalent to the real-number comparison (`leFiveSqrtTwo_iff`).
-/

deriving instance DecidableEq for Except

namespace UL1400

/-- A waveform entry: (time, value), as one item of a Python `dict[float, float]`. -/
abbrev KV := ℚ × ℚ

/-- A region: (start, end) pair. -/
abbrev Region := ℚ × ℚ

/-- The `Interpretation` enum of `analysis/analyzer_support.py`. -/
inductive Interpretation
  | strict
  | typos
  | reasonable
  | speculative
deriving DecidableEq

/-- The `StandardVersion` enum of `analysis/analyzer_support.py` (one member). -/
inductive StandardVersion
  | ul1400_1_issue_1
deriving DecidableEq

/-- The distinct error situations of the Python source.  `configurationError`
and `undefinedDomainError` are both `ValueError` in Python but are the spec's
two error kinds; `valueError` covers the remaining `ValueError` raises;
`attributeError` models `None.values()`; `typeError` models comparing
`dict_keys` with `float`; `fuelExhausted` marks a loop iteration bound being
hit in the fuel-based embedding of a Python `while` loop (proved unreachable
for the directions the analyzers use). -/
inductive PyError
  | configurationError
  | undefinedDomainError
  | valueError
  | attributeError
  | typeError
  | fuelExhausted
deriving DecidableEq

/-- Python `max(xs)` on a list of rationals (0 as junk value on `[]`, where
Python raises `ValueError`; every use below is guarded by nonemptiness). -/
def listMax : List ℚ → ℚ
  | [] => 0
  | x :: xs => xs.foldl max x

/-- Python `min(xs)` on a list of rationals (junk 0 on `[]`, as `listMax`). -/
def listMin : List ℚ → ℚ
  | [] => 0
  | x :: xs => xs.foldl min x

/-- Python `min(d.keys())` for a waveform/segment. -/
def minKey (l : List KV) : ℚ := listMin (l.map Prod.fst)

/-- Python `max(d.keys())` for a waveform/segment. -/
def maxKey (l : List KV) : ℚ := listMax (l.map Prod.fst)

/-- Python `d[t]`: the value stored at key `t` (first matching entry; keys are
pairwise distinct in a dict, junk 0 when absent). -/
def wlookup (w : List KV) (t : ℚ) : ℚ :=
  match w.find? (fun kv => kv.1 = t) with
  | some kv => kv.2
  | none => 0

/-- Decidable rational embedding of the Python comparison
`peak <= 5 * math.sqrt(2)`: over the reals, `q ≤ 5·√2` holds iff
`q < 0 ∨ q² ≤ 50` (see `leFiveSqrtTwo_iff`). -/
def leFiveSqrtTwo (q : ℚ) : Bool :=
  decide (q < 0 ∨ q ^ 2 ≤ 50)

/-- Embedding of `utils/waveform.unionize_regions`. -/
def unionize_regions (region_1 region_2 : Region) : Option Region :=
  if region_1.2 < region_2.1 ∨ region_2.2 < region_1.1 then none
  else some (min region_1.1 region_2.1, max region_1.2 region_2.2)

/-- Scan for the first later element that merges with `x`
(inner loop of the `itertools.combinations` scan in `merge_regions`);
returns the partner and the union. -/
def findUnionPartner (x : Region) : List Region → Option (Region × Region)
  | [] => none
  | y :: ys =>
    match unionize_regions x y with
    | some u => some (y, u)
    | none => findUnionPartner x ys

/-- Scan of all position pairs `i < j` in `itertools.combinations` order for
the first mergeable pair; returns both regions and their union. -/
def findMergeable : List Region → Option (Region × Region × Region)
  | [] => none
  | x :: xs =>
    match findUnionPartner x xs with
    | some (y, u) => some (x, y, u)
    | none => findMergeable xs

/-- One `while` pass structure of `utils/waveform.merge_regions`, with an
iteration bound: each iteration removes the first occurrences of the two
members of the first mergeable pair (Python `list.remove`) and appends their
union, shrinking the list by one; `merge_regions` supplies a sufficient bound. -/
def mergeLoop : Nat → List Region → List Region
  | 0, l => l
  | n + 1, l =>
    match findMergeable l with
    | none => l
    | some (x, y, u) => mergeLoop n (((l.erase x).erase y) ++ [u])

/-- Embedding of `utils/waveform.merge_regions`: iterate until no pair of
regions is overlapped or exactly adjacent.  A list of length `k` admits at
most `k - 1` merge steps, so `l.length` iterations always reach the fixpoint
(`findMergeable_mergeLoop`). -/
def merge_regions (regions : List Region) : List Region :=
  mergeLoop regions.length regions

/-- Embedding of `utils/waveform.expand_region`. -/
def expand_region (existing : Option Region) (addition : Region) :
    Except PyError Region :=
  match existing with
  | none => .ok addition
  | some e =>
    match unionize_regions e addition with
    | none => .error .valueError
    | some u => .ok u

/-- Embedding of the `while` loop of `utils/waveform.get_segment_from_waveform`
with an explicit iteration bound (`fuel`).  Result `none` means the bound was
hit (for a direction other than `"start"`/`"end"` the Python loop never
terminates, and no bound suffices); `some none` is Python returning `None`
(the `ValueError` of `max`/`min` on an empty collection being caught);
`some (some seg)` is a successful extraction. -/
def segLoop (w : List KV) (min_duration : ℚ) (dir : String) :
    Nat → List KV → Option (Option (List KV))
  | 0, _ => none
  | n + 1, segment =>
    if segment = [] then some none
    else if maxKey segment - minKey segment < min_duration then
      if dir = "start" then
        let earlier := w.filter (fun kv => decide (kv.1 < minKey segment))
        if earlier = [] then some none
        else
          segLoop w min_duration dir n
            (segment ++ [(maxKey earlier, wlookup w (maxKey earlier))])
      else if dir = "end" then
        let later := w.filter (fun kv => decide (maxKey segment < kv.1))
        if later = [] then some none
        else
          segLoop w min_duration dir n
            (segment ++ [(minKey later, wlookup w (minKey later))])
      else segLoop w min_duration dir n segment
    else some (some segment)

/-- The initial segment of `get_segment_from_waveform`: all waveform points
with time in `[start_time, end_time]`. -/
def inRangeW (w : List KV) (start_time end_time : ℚ) : List KV :=
  w.filter (fun kv => decide (start_time ≤ kv.1 ∧ kv.1 ≤ end_time))

/-- Embedding of `utils/waveform.get_segment_from_waveform`.  The iteration
bound `w.length + 1` is sufficient for the `"start"` and `"end"` directions
(each iteration consumes one further waveform point:
`segLoop_start_isSome`/`segLoop_end_isSome`), so on those directions the
outer `Option` is always `some`. -/
def get_segment_from_waveform (waveform : Option (List KV))
    (start_time end_time min_duration : ℚ) (dir : String) :
    Option (Option (List KV)) :=
  match waveform with
  | none => some none
  | some w => segLoop w min_duration dir (w.length + 1) (inRangeW w start_time end_time)

/-- Embedding of `letgo_analyzer.is_current_below_letgo`.  The parameters
`interpretation` and `standard_version` are `Option`s: `none` stands for any
Python value outside the respective enum (the source checks membership). -/
def is_current_below_letgo (segment_values : Option (List ℚ))
    (interpretation : Option Interpretation)
    (standard_version : Option StandardVersion) : Except PyError (Option Bool) :=
  match segment_values with
  | none => .ok none
  | some values =>
    if standard_version ≠ some .ul1400_1_issue_1 then .error .configurationError
    else
      match interpretation with
      | none => .error .configurationError
      | some interp =>
        let peak_ma := listMax values * 1000
        let mean_ma := values.sum / (values.length : ℚ) * 1000
        let peak_ma :=
          if interp = .reasonable ∨ interp = .speculative then
            listMax (values.map (fun x => |x|)) * 1000
          else peak_ma
        let mean_ma :=
          if interp = .reasonable ∨ interp = .speculative then |mean_ma| else mean_ma
        if mean_ma < 0 then .error .undefinedDomainError
        else if mean_ma ≤ 4.21 then .ok (some (leFiveSqrtTwo peak_ma))
        else if mean_ma ≤ 30 then
          let limit_ma := (if interp = .strict then (33.3 : ℚ) else 3.33) + 0.89 * mean_ma
          .ok (some (decide (peak_ma ≤ limit_ma)))
        else if interp = .strict ∨ interp = .typos then .error .undefinedDomainError
        else .ok (some false)

/-- Embedding of `letgo_analyzer.is_voltage_below_letgo`.  `env_conditions` is
an `Option String` (`none` models Python `None`). -/
def is_voltage_below_letgo (segment_values : Option (List ℚ))
    (env_conditions : Option String)
    (interpretation : Option Interpretation)
    (standard_version : Option StandardVersion) : Except PyError (Option Bool) :=
  match segment_values with
  | none => .ok none
  | some values =>
    if standard_version ≠ some .ul1400_1_issue_1 then .error .configurationError
    else
      match interpretation with
      | none => .error .configurationError
      | some interp =>
        if env_conditions ≠ some "wet" ∧ env_conditions ≠ some "dry" then
          .error .configurationError
        else
          let peak := listMax values
          let mean := values.sum / (values.length : ℚ)
          let peak :=
            if interp = .reasonable ∨ interp = .speculative then
              listMax (values.map (fun x => |x|))
            else peak
          let mean :=
            if interp = .reasonable ∨ interp = .speculative then |mean| else mean
          if mean < 0 then .error .undefinedDomainError
          else if env_conditions = some "wet" then
            if mean ≤ 10.4 then .ok (some (decide (peak ≤ (21.2 : ℚ))))
            else if mean ≤ 30 then .ok (some (decide (peak ≤ 16.5 + 0.45 * mean)))
            else if interp = .strict ∨ interp = .typos then .error .undefinedDomainError
            else .ok (some false)
          else
            if mean ≤ 20.9 then .ok (some (decide (peak ≤ (42.4 : ℚ))))
            else if mean ≤ 60 then .ok (some (decide (peak ≤ 33 + 0.45 * mean)))
            else if interp = .strict ∨ interp = .typos then .error .undefinedDomainError
            else .ok (some false)

/-- Embedding of `letgo_analyzer.is_below_letgo` (dispatch on the measurement
type string). -/
def is_below_letgo (measurement_type : String) (segment_values : Option (List ℚ))
    (env_conditions : Option String)
    (interpretation : Option Interpretation)
    (standard_version : Option StandardVersion) : Except PyError (Option Bool) :=
  if measurement_type = "current" then
    is_current_below_letgo segment_values interpretation standard_version
  else if measurement_type = "voltage" then
    is_voltage_below_letgo segment_values env_conditions interpretation standard_version
  else .error .configurationError

/-- Test whether an `Except` result is an error (a worker raising, in
`find_time_regions_below_letgo`'s pool error callback). -/
def isErr {ε α : Type} : Except ε α → Bool
  | .error _ => true
  | .ok _ => false

/-- Embedding of `letgo_analyzer._analyze_segment`.  Python calls
`segment.values()` without a `None` check, so an unextractable segment raises
`AttributeError` (caught at the pool boundary by the caller). -/
def analyze_segment (measurement_type : String) (w : List KV)
    (target_start_time target_end_time min_window_duration : ℚ)
    (env_conditions : Option String)
    (interpretation : Option Interpretation)
    (standard_version : Option StandardVersion) : Except PyError (Option Region) :=
  match get_segment_from_waveform (some w) target_start_time target_end_time
      min_window_duration "start" with
  | none => .error .fuelExhausted
  | some none => .error .attributeError
  | some (some segment) =>
    match is_below_letgo measurement_type (some (segment.map Prod.snd))
        env_conditions interpretation standard_version with
    | .error e => .error e
    | .ok verdict =>
      if verdict = some true then .ok (some (minKey segment, maxKey segment))
      else .ok none

/-- One waveform pass of `letgo_analyzer.find_time_regions_below_letgo`:
enumerate the admissible target windows, evaluate each (in Python: across a
process pool), and contribute the passing regions — or nothing at all if any
evaluation raised (the pool's error callback records the failure and the
whole pass is discarded). -/
def passRegions (measurement_type : String) (w : List KV)
    (env_conditions : Option String) (start_time : Option ℚ)
    (min_window_duration : ℚ)
    (interpretation : Option Interpretation)
    (standard_version : Option StandardVersion) : List Region :=
  let min_start_time := start_time.getD (minKey w)
  let target_times := (w.map Prod.fst).filter
      (fun t => decide (min_start_time ≤ t - min_window_duration))
  let results := target_times.map (fun t =>
      analyze_segment measurement_type w (t - min_window_duration) t
        min_window_duration env_conditions interpretation standard_version)
  if results.any isErr then []
  else results.filterMap (fun r => match r with | .ok o => o | .error _ => none)

/-- Embedding of `letgo_analyzer.find_time_regions_below_letgo` (the
parallel implementation), as the mathematical function it computes: the
current pass, then the voltage pass, then the merge of all contributed
regions.  Worker errors never escape (they only blank out their pass), so
the result is total.  (With an empty waveform and no `start_time` Python
would raise on `min(waveform.keys())`; no claim evaluates there and `minKey`
returns a junk value.) -/
def find_time_regions_below_letgo (current_waveform voltage_waveform : Option (List KV))
    (env_conditions : Option String) (start_time : Option ℚ)
    (min_window_duration : ℚ)
    (interpretation : Option Interpretation)
    (standard_version : Option StandardVersion) : List Region :=
  let current_regions :=
    match current_waveform with
    | none => []
    | some w => passRegions "current" w env_conditions start_time
        min_window_duration interpretation standard_version
  let voltage_regions :=
    match voltage_waveform with
    | none => []
    | some w => passRegions "voltage" w env_conditions start_time
        min_window_duration interpretation standard_version
  merge_regions (current_regions ++ voltage_regions)

namespace LetGo

/-- Embedding of `let_go.is_current_below_letgo` (the serial module): no
interpretation parameter, the 3.33 typo fix is hard-coded, and a mean above
30 mA always raises. -/
def is_current_below_letgo (segment_values : Option (List ℚ)) :
    Except PyError (Option Bool) :=
  match segment_values with
  | none => .ok none
  | some values =>
    let peak_ma := listMax values * 1000
    let mean_ma := values.sum / (values.length : ℚ) * 1000
    if mean_ma < 0 then .error .undefinedDomainError
    else if mean_ma ≤ 4.21 then .ok (some (leFiveSqrtTwo peak_ma))
    else if mean_ma ≤ 30 then .ok (some (decide (peak_ma ≤ 3.33 + 0.89 * mean_ma)))
    else .error .undefinedDomainError

/-- Embedding of `let_go.is_voltage_below_letgo` (the serial module). -/
def is_voltage_below_letgo (segment_values : Option (List ℚ))
    (env_conditions : Option String) : Except PyError (Option Bool) :=
  match segment_values with
  | none => .ok none
  | some values =>
    if env_conditions ≠ some "wet" ∧ env_conditions ≠ some "dry" then
      .error .configurationError
    else
      let peak := listMax values
      let mean := values.sum / (values.length : ℚ)
      if mean < 0 then .error .undefinedDomainError
      else if env_conditions = some "wet" then
        if mean ≤ 10.4 then .ok (some (decide (peak ≤ (21.2 : ℚ))))
        else if mean ≤ 30 then .ok (some (decide (peak ≤ 16.5 + 0.45 * mean)))
        else .error .undefinedDomainError
      else
        if mean ≤ 20.9 then .ok (some (decide (peak ≤ (42.4 : ℚ))))
        else if mean ≤ 60 then .ok (some (decide (peak ≤ 33 + 0.45 * mean)))
        else .error .undefinedDomainError

/-- Embedding of `let_go.is_below_letgo` (the serial module's dispatch). -/
def is_below_letgo (measurement_type : String) (segment_values : Option (List ℚ))
    (env_conditions : Option String) : Except PyError (Option Bool) :=
  if measurement_type = "current" then is_current_below_letgo segment_values
  else if measurement_type = "voltage" then
    is_voltage_below_letgo segment_values env_conditions
  else .error .configurationError

/-- One waveform pass of `let_go.find_time_regions_below_letgo` (the serial
implementation), with an iteration bound (the target end time descends
through the waveform's keys, so `w.length + 1` iterations suffice).  The
line `new_region = (min(segment.keys(), max(segment.keys())))` compares a
`dict_keys` view with a float, which raises `TypeError` — embedded as
`.error .typeError` whenever a window's verdict is `True`. -/
def serialLoop (measurement_type : String) (w : List KV)
    (env_conditions : Option String) (min_start_time min_window_duration : ℚ) :
    Nat → Option ℚ → ℚ → Option Region → List Region → Except PyError (List Region)
  | 0, _, _, _, _ => .error .fuelExhausted
  | n + 1, target_start?, target_end, working_region, acc =>
    match target_start? with
    | none => .ok (acc ++ working_region.toList)
    | some target_start =>
      if target_start < min_start_time then .ok (acc ++ working_region.toList)
      else
        match get_segment_from_waveform (some w) target_start target_end
            min_window_duration "start" with
        | none => .error .fuelExhausted
        | some none => .error .attributeError
        | some (some segment) =>
          match is_below_letgo measurement_type (some (segment.map Prod.snd))
              env_conditions with
          | .error e => .error e
          | .ok verdict =>
            if verdict = some true then .error .typeError
            else
              let acc2 := if working_region.isSome then acc ++ working_region.toList else acc
              let remaining := w.filter (fun kv => decide (kv.1 < target_end))
              if remaining = [] then
                serialLoop measurement_type w env_conditions min_start_time
                  min_window_duration n none target_end none acc2
              else
                serialLoop measurement_type w env_conditions min_start_time
                  min_window_duration n
                  (some (maxKey remaining - min_window_duration)) (maxKey remaining)
                  none acc2

/-- One waveform pass of the serial implementation, initialized as in
`let_go.find_time_regions_below_letgo`. -/
def findPass (measurement_type : String) (w : List KV)
    (env_conditions : Option String) (start_time : Option ℚ)
    (min_window_duration : ℚ) : Except PyError (List Region) :=
  let min_start_time := start_time.getD (minKey w)
  let target_end_time := maxKey w
  serialLoop measurement_type w env_conditions min_start_time min_window_duration
    (w.length + 1) (some (target_end_time - min_window_duration)) target_end_time
    none []

/-- Embedding of `let_go.find_time_regions_below_letgo` (the serial
implementation): the current pass, then the voltage pass, then the merge;
exceptions propagate to the caller (this function has no error handler). -/
def find_time_regions_below_letgo (current_waveform voltage_waveform : Option (List KV))
    (env_conditions : Option String) (start_time : Option ℚ)
    (min_window_duration : ℚ) : Except PyError (List Region) :=
  match (match current_waveform with
         | none => Except.ok []
         | some w => findPass "current" w env_conditions start_time min_window_duration) with
  | .error e => .error e
  | .ok current_regions =>
    match (match voltage_waveform with
           | none => Except.ok []
           | some w => findPass "voltage" w env_conditions start_time min_window_duration) with
    | .error e => .error e
    | .ok voltage_regions =>
      .ok (merge_regions (current_regions ++ voltage_regions))

end LetGo

example : is_current_below_letgo (some [3/1000]) (some .strict)
    (some .ul1400_1_issue_1) = .ok (some true) := by
  simp [is_current_below_letgo, listMax, leFiveSqrtTwo]
  norm_num

example : is_current_below_letgo (some [-(1 : ℚ)/1000]) (some .reasonable)
    (some .ul1400_1_issue_1) = .ok (some true) := by
  simp [is_current_below_letgo, listMax, leFiveSqrtTwo]
  norm_num [abs]

example : is_current_below_letgo (some [31/1000]) (some .typos)
    (some .ul1400_1_issue_1) = .error .undefinedDomainError := by
  norm_num [is_current_below_letgo, listMax]

example : is_voltage_below_letgo (some [5]) (some "wet") (some .strict)
    (some .ul1400_1_issue_1) = .ok (some true) := by
  norm_num [is_voltage_below_letgo, listMax]

example : is_current_below_letgo none none none = .ok none := rfl

example : merge_regions [((0:ℚ),(5:ℚ)), (5,10)] = [(0,10)] := by
  norm_num [merge_regions, mergeLoop, findMergeable, findUnionPartner,
    unionize_regions, List.erase]

example : merge_regions [((0:ℚ),(1:ℚ)), (5,6)] = [(0,1), (5,6)] := by
  norm_num [merge_regions, mergeLoop, findMergeable, findUnionPartner,
    unionize_regions]

example : get_segment_from_waveform (some [((0:ℚ),(7:ℚ)), (3,8)]) 0 3 3 "start"
    = some (some [(0,7), (3,8)]) := by
  have h1 : inRangeW [((0:ℚ),(7:ℚ)), (3,8)] 0 3 = [(0,7), (3,8)] := by
    norm_num [inRangeW, List.filter]
  rw [get_segment_from_waveform, h1, segLoop]
  norm_num [minKey, maxKey, listMin, listMax]
  exact fun h => absurd h (by simp)

example : get_segment_from_waveform (some [((0:ℚ),(7:ℚ)), (3,8)]) 2 3 3 "start"
    = some (some [(3,8), (0,7)]) := by
  have h1 : inRangeW [((0:ℚ),(7:ℚ)), (3,8)] 2 3 = [(3,8)] := by
    norm_num [inRangeW, List.filter]
  rw [get_segment_from_waveform, h1, segLoop]
  norm_num [minKey, maxKey, listMin, listMax, wlookup, List.find?, List.filter]
  rw [segLoop]
  norm_num [minKey, maxKey, listMin, listMax]
  exact fun h => absurd h (by simp)

/-! ### The square-root comparison -/

/-- The decidable test `leFiveSqrtTwo` agrees with the real-number comparison
against `5·√2` that the Python code performs. -/
lemma leFiveSqrtTwo_iff (q : ℚ) :
    leFiveSqrtTwo q = true ↔ (q : ℝ) ≤ 5 * Real.sqrt 2 := by
  have hms : Real.sqrt 2 * Real.sqrt 2 = 2 := Real.mul_self_sqrt (by norm_num)
  have hn : (0 : ℝ) ≤ Real.sqrt 2 := Real.sqrt_nonneg 2
  unfold leFiveSqrtTwo
  simp only [decide_eq_true_eq]
  constructor
  · rintro (h | h)
    · have hq : (q : ℝ) < 0 := by exact_mod_cast h
      nlinarith
    · have hq : ((q : ℝ)) ^ 2 ≤ 50 := by exact_mod_cast h
      nlinarith [sq_nonneg ((q : ℝ) - 5 * Real.sqrt 2), sq_nonneg ((q : ℝ) + 5 * Real.sqrt 2)]
  · intro h
    rcases lt_or_le q 0 with h0 | h0
    · exact Or.inl h0
    · right
      have h0' : (0 : ℝ) ≤ (q : ℝ) := by exact_mod_cast h0
      have hq : ((q : ℝ)) ^ 2 ≤ 50 := by nlinarith
      exact_mod_cast hq

/-- Negation form of `leFiveSqrtTwo_iff`. -/
lemma leFiveSqrtTwo_eq_false_iff (q : ℚ) :
    leFiveSqrtTwo q = false ↔ ¬ (q : ℝ) ≤ 5 * Real.sqrt 2 := by
  rw [← leFiveSqrtTwo_iff]
  simp

/-! ### Claim theorems C1 and C6 -/

/-- Evaluation of the current evaluator at a present value list, a valid
interpretation and the supported standard version, with the peak and mean
named. -/
lemma is_current_eval (l : List ℚ) (i : Interpretation) (p m : ℚ)
    (hp : p = (if i = .reasonable ∨ i = .speculative then
        listMax (l.map (fun x => |x|)) else listMax l) * 1000)
    (hm : m = if i = .reasonable ∨ i = .speculative then
        |l.sum / (l.length : ℚ) * 1000| else l.sum / (l.length : ℚ) * 1000) :
    is_current_below_letgo (some l) (some i) (some .ul1400_1_issue_1) =
      (if m < 0 then .error .undefinedDomainError
       else if m ≤ 4.21 then .ok (some (leFiveSqrtTwo p))
       else if m ≤ 30 then
         .ok (some (decide (p ≤ (if i = .strict then (33.3 : ℚ) else 3.33) + 0.89 * m)))
       else if i = .strict ∨ i = .typos then .error .undefinedDomainError
       else .ok (some false)) := by
  subst hp hm
  cases i <;> rfl

/-- Transfer of a boolean verdict to the pair of iffs used by C1. -/
lemma ok_some_bool_iff (b : Bool) (P : Prop) (h : b = true ↔ P) :
    ((Except.ok (some b) : Except PyError (Option Bool)) = .ok (some true) ↔ P)
    ∧ ((Except.ok (some b) : Except PyError (Option Bool)) = .ok (some false) ↔ ¬ P) := by
  cases b <;> simp_all

/-- C1: for a non-empty current segment with non-negative mean, a supported
standard version and a valid interpretation level, `is_current_below_letgo`
computes `peak_mA = max(values)·1000` and `mean_mA = average(values)·1000`
(magnitudes under REASONABLE/SPECULATIVE) and, whenever `mean_mA ≤ 30`,
returns `Below` iff `peak_mA ≤ limit`, where `limit = 5·√2` when
`mean_mA ≤ 4.21` (inclusive boundary) and otherwise (so also at the
inclusive boundary `mean_mA = 30`, not the fallback) `limit =
33.3 + 0.89·mean_mA` under STRICT and `limit = 3.33 + 0.89·mean_mA` under
TYPOS/REASONABLE/SPECULATIVE. -/
theorem C1_current_threshold_formula (l : List ℚ) (i : Interpretation)
    (p m : ℚ) (lim : ℝ)
    (hl : l ≠ [])
    (hmean : 0 ≤ l.sum / (l.length : ℚ))
    (hp : p = (if i = .reasonable ∨ i = .speculative then
        listMax (l.map (fun x => |x|)) else listMax l) * 1000)
    (hm : m = if i = .reasonable ∨ i = .speculative then
        |l.sum / (l.length : ℚ) * 1000| else l.sum / (l.length : ℚ) * 1000)
    (hm30 : m ≤ 30)
    (hlim : lim = if m ≤ 4.21 then 5 * Real.sqrt 2
        else ((if i = .strict then (33.3 : ℝ) else 3.33) + 0.89 * (m : ℝ))) :
    (is_current_below_letgo (some l) (some i) (some .ul1400_1_issue_1)
        = Except.ok (some true) ↔ (p : ℝ) ≤ lim)
    ∧ (is_current_below_letgo (some l) (some i) (some .ul1400_1_issue_1)
        = Except.ok (some false) ↔ ¬ (p : ℝ) ≤ lim) := by
  rw [is_current_eval l i p m hp hm]
  have hm0 : 0 ≤ m := by
    rw [hm]
    split_ifs
    · exact abs_nonneg _
    · exact mul_nonneg hmean (by norm_num)
  rw [if_neg (not_lt.mpr hm0)]
  by_cases h421 : m ≤ 4.21
  · rw [if_pos h421, hlim, if_pos h421]
    exact ok_some_bool_iff _ _ (leFiveSqrtTwo_iff p)
  · rw [if_neg h421, if_pos hm30, hlim, if_neg h421]
    refine ok_some_bool_iff _ _ ?_
    have hc : (((if i = .strict then (33.3 : ℚ) else 3.33) : ℚ) : ℝ)
        = (if i = .strict then (33.3 : ℝ) else 3.33) := by
      split_ifs <;> norm_num
    have h089 : (0.89 : ℝ) = ((0.89 : ℚ) : ℝ) := by norm_num
    rw [decide_eq_true_eq, ← hc, h089, ← Rat.cast_mul, ← Rat.cast_add, Rat.cast_le]

/-- Witness for C1 at the concrete input `[0.003 A]` under STRICT. -/
theorem C1_current_threshold_formula_witness :
    (is_current_below_letgo (some [3/1000]) (some .strict) (some .ul1400_1_issue_1)
        = Except.ok (some true) ↔ ((3 : ℚ) : ℝ) ≤ 5 * Real.sqrt 2)
    ∧ (is_current_below_letgo (some [3/1000]) (some .strict) (some .ul1400_1_issue_1)
        = Except.ok (some false) ↔ ¬ ((3 : ℚ) : ℝ) ≤ 5 * Real.sqrt 2) :=
  C1_current_threshold_formula [3/1000] .strict 3 3 (5 * Real.sqrt 2)
    (by simp)
    (by norm_num)
    (by simp only [reduceCtorEq, or_self, if_false]; norm_num [listMax])
    (by simp only [reduceCtorEq, or_self, if_false]; norm_num)
    (by norm_num)
    (by norm_num)

/-- Evaluation of the voltage evaluator at a present value list, a valid
environment and interpretation and the supported standard version. -/
lemma is_voltage_eval (l : List ℚ) (i : Interpretation) (env : String) (p m : ℚ)
    (henv : env = "wet" ∨ env = "dry")
    (hp : p = if i = .reasonable ∨ i = .speculative then
        listMax (l.map (fun x => |x|)) else listMax l)
    (hm : m = if i = .reasonable ∨ i = .speculative then
        |l.sum / (l.length : ℚ)| else l.sum / (l.length : ℚ)) :
    is_voltage_below_letgo (some l) (some env) (some i) (some .ul1400_1_issue_1) =
      (if m < 0 then .error .undefinedDomainError
       else if env = "wet" then
         if m ≤ 10.4 then .ok (some (decide (p ≤ (21.2 : ℚ))))
         else if m ≤ 30 then .ok (some (decide (p ≤ 16.5 + 0.45 * m)))
         else if i = .strict ∨ i = .typos then .error .undefinedDomainError
         else .ok (some false)
       else
         if m ≤ 20.9 then .ok (some (decide (p ≤ (42.4 : ℚ))))
         else if m ≤ 60 then .ok (some (decide (p ≤ 33 + 0.45 * m)))
         else if i = .strict ∨ i = .typos then .error .undefinedDomainError
         else .ok (some false)) := by
  subst hp hm
  rcases henv with h | h <;> subst h <;> cases i <;> rfl

/-- Behavior of the current evaluator above the 30 mA formula ceiling
(in mean magnitude): an unconditional domain error at STRICT/TYPOS, a
conservative `AtOrAbove` at REASONABLE/SPECULATIVE. -/
lemma is_current_over_ceiling (l : List ℚ) (i : Interpretation)
    (hm : 30 < |l.sum / (l.length : ℚ) * 1000|) :
    is_current_below_letgo (some l) (some i) (some .ul1400_1_issue_1)
      = if i = .strict ∨ i = .typos then .error .undefinedDomainError
        else .ok (some false) := by
  have habs := abs_nonneg (l.sum / (l.length : ℚ) * 1000)
  rw [is_current_eval l i _ _ rfl rfl]
  rcases lt_abs.mp hm with h | h <;>
    cases i <;>
    simp only [reduceCtorEq, or_self, or_false, false_or, or_true, true_or,
      if_true, if_false] <;>
    split_ifs <;>
    first
      | rfl
      | (exfalso; linarith)

/-- Behavior of the voltage evaluator above the formula ceiling
(30 V wet, 60 V dry, in mean magnitude). -/
lemma is_voltage_over_ceiling (l : List ℚ) (i : Interpretation) (env : String)
    (h : (env = "wet" ∧ 30 < |l.sum / (l.length : ℚ)|)
       ∨ (env = "dry" ∧ 60 < |l.sum / (l.length : ℚ)|)) :
    is_voltage_below_letgo (some l) (some env) (some i) (some .ul1400_1_issue_1)
      = if i = .strict ∨ i = .typos then .error .undefinedDomainError
        else .ok (some false) := by
  have habs := abs_nonneg (l.sum / (l.length : ℚ))
  rcases h with ⟨he, hm⟩ | ⟨he, hm⟩ <;> subst he
  · rw [is_voltage_eval l i "wet" _ _ (Or.inl rfl) rfl rfl]
    rcases lt_abs.mp hm with h | h <;>
      cases i <;>
      simp only [reduceCtorEq, or_self, or_false, false_or, or_true, true_or,
        if_true, if_false, eq_self_iff_true] <;>
      split_ifs <;>
      first
        | rfl
        | (exfalso; linarith)
  · rw [is_voltage_eval l i "dry" _ _ (Or.inr rfl) rfl rfl]
    have hdw : ¬ (("dry" : String) = "wet") := by simp
    rcases lt_abs.mp hm with h | h <;>
      cases i <;>
      simp only [reduceCtorEq, or_self, or_false, false_or, or_true, true_or,
        if_true, if_false, hdw] <;>
      split_ifs <;>
      first
        | rfl
        | (exfalso; linarith)

/-- C2: for non-empty value lists whose mean magnitude exceeds the formula
ceiling (current: `mean_mA > 30`; voltage: mean `> 30` wet, `> 60` dry),
`is_current_below_letgo` / `is_voltage_below_letgo` raise
`UndefinedDomainError` under STRICT and TYPOS and return `AtOrAbove`
(no exception) under REASONABLE and SPECULATIVE. -/
theorem C2_over_ceiling (lc lv : List ℚ) (i : Interpretation) (env : String)
    (hlc : lc ≠ []) (hlv : lv ≠ [])
    (hmc : 30 < |lc.sum / (lc.length : ℚ) * 1000|)
    (hv : (env = "wet" ∧ 30 < |lv.sum / (lv.length : ℚ)|)
        ∨ (env = "dry" ∧ 60 < |lv.sum / (lv.length : ℚ)|)) :
    (is_current_below_letgo (some lc) (some i) (some .ul1400_1_issue_1)
      = if i = .strict ∨ i = .typos then .error .undefinedDomainError
        else .ok (some false))
    ∧ (is_voltage_below_letgo (some lv) (some env) (some i) (some .ul1400_1_issue_1)
      = if i = .strict ∨ i = .typos then .error .undefinedDomainError
        else .ok (some false)) :=
  ⟨is_current_over_ceiling lc i hmc, is_voltage_over_ceiling lv i env hv⟩

/-- Witness for C2 at mean 31 mA / 31 V (wet) under STRICT. -/
theorem C2_over_ceiling_witness :
    (is_current_below_letgo (some [31/1000]) (some .strict) (some .ul1400_1_issue_1)
      = if Interpretation.strict = .strict ∨ Interpretation.strict = .typos then
          .error .undefinedDomainError else .ok (some false))
    ∧ (is_voltage_below_letgo (some [31]) (some "wet") (some .strict)
        (some .ul1400_1_issue_1)
      = if Interpretation.strict = .strict ∨ Interpretation.strict = .typos then
          .error .undefinedDomainError else .ok (some false)) :=
  C2_over_ceiling [31/1000] [31] .strict "wet" (by simp) (by simp)
    (by norm_num [abs]) (Or.inl ⟨rfl, by norm_num [abs]⟩)

/-- C3 counterexample: a one-sample current list with strictly negative
average, evaluated at REASONABLE, does not raise — the magnitude
substitution yields mean 1 mA and the verdict is `Below`, refuting the
claim that a negative average raises at every interpretation level. -/
theorem C3_negative_mean_counterexample :
    [-(1 : ℚ)/1000].sum / (([-(1 : ℚ)/1000].length : ℚ)) < 0
    ∧ is_current_below_letgo (some [-(1 : ℚ)/1000]) (some .reasonable)
        (some .ul1400_1_issue_1) = .ok (some true) := by
  constructor
  · norm_num
  · simp [is_current_below_letgo, listMax, leFiveSqrtTwo]
    norm_num [abs]

/-- C3 (amended): for every non-empty list of values with strictly negative
average, the threshold evaluation (`is_current_below_letgo`, and
`is_voltage_below_letgo` with a valid environment) raises
`UndefinedDomainError` under STRICT and TYPOS; under REASONABLE and
SPECULATIVE the magnitude substitution makes the mean non-negative, so the
negative-mean guard does not fire there. -/
theorem C3_negative_mean (lc lv : List ℚ) (i : Interpretation) (env : String)
    (hlc : lc ≠ []) (hlv : lv ≠ [])
    (hc : lc.sum / (lc.length : ℚ) < 0)
    (hvneg : lv.sum / (lv.length : ℚ) < 0)
    (henv : env = "wet" ∨ env = "dry") :
    ((i = .strict ∨ i = .typos) →
      is_current_below_letgo (some lc) (some i) (some .ul1400_1_issue_1)
        = .error .undefinedDomainError
      ∧ is_voltage_below_letgo (some lv) (some env) (some i) (some .ul1400_1_issue_1)
        = .error .undefinedDomainError)
    ∧ ((i = .reasonable ∨ i = .speculative) →
      (∃ rc, is_current_below_letgo (some lc) (some i) (some .ul1400_1_issue_1)
        = .ok rc)
      ∧ (∃ rv, is_voltage_below_letgo (some lv) (some env) (some i)
        (some .ul1400_1_issue_1) = .ok rv)) := by
  constructor
  · intro hi
    have hir : ¬ (i = .reasonable ∨ i = .speculative) := by
      rcases hi with h | h <;> subst h <;> simp
    constructor
    · rw [is_current_eval lc i _ _ rfl rfl]
      simp only [hir, if_false]
      rw [if_pos (mul_neg_of_neg_of_pos hc (by norm_num : (0 : ℚ) < 1000))]
    · rw [is_voltage_eval lv i env _ _ henv rfl rfl]
      simp only [hir, if_false]
      rw [if_pos hvneg]
  · intro hir
    have hist : ¬ (i = .strict ∨ i = .typos) := by
      rcases hir with h | h <;> subst h <;> simp
    constructor
    · rw [is_current_eval lc i _ _ rfl rfl]
      simp only [hir, if_true]
      rw [if_neg (not_lt.mpr (abs_nonneg _))]
      by_cases h1 : |lc.sum / (lc.length : ℚ) * 1000| ≤ 4.21
      · rw [if_pos h1]; exact ⟨_, rfl⟩
      · rw [if_neg h1]
        by_cases h2 : |lc.sum / (lc.length : ℚ) * 1000| ≤ 30
        · rw [if_pos h2]; exact ⟨_, rfl⟩
        · rw [if_neg h2, if_neg hist]; exact ⟨_, rfl⟩
    · rw [is_voltage_eval lv i env _ _ henv rfl rfl]
      simp only [hir, if_true]
      rw [if_neg (not_lt.mpr (abs_nonneg _))]
      rcases henv with he | he <;> subst he
      · rw [if_pos rfl]
        by_cases h1 : |lv.sum / (lv.length : ℚ)| ≤ 10.4
        · rw [if_pos h1]; exact ⟨_, rfl⟩
        · rw [if_neg h1]
          by_cases h2 : |lv.sum / (lv.length : ℚ)| ≤ 30
          · rw [if_pos h2]; exact ⟨_, rfl⟩
          · rw [if_neg h2, if_neg hist]; exact ⟨_, rfl⟩
      · rw [if_neg (by simp : ¬ (("dry" : String) = "wet"))]
        by_cases h1 : |lv.sum / (lv.length : ℚ)| ≤ 20.9
        · rw [if_pos h1]; exact ⟨_, rfl⟩
        · rw [if_neg h1]
          by_cases h2 : |lv.sum / (lv.length : ℚ)| ≤ 60
          · rw [if_pos h2]; exact ⟨_, rfl⟩
          · rw [if_neg h2, if_neg hist]; exact ⟨_, rfl⟩

/-- Witness for C3 (amended) at `[-0.001 A]` / `[-1 V]` wet: the domain error
under STRICT, and error-free evaluation under REASONABLE. -/
theorem C3_negative_mean_witness :
    (is_current_below_letgo (some [-(1 : ℚ)/1000]) (some .strict) (some .ul1400_1_issue_1)
      = .error .undefinedDomainError
    ∧ is_voltage_below_letgo (some [-(1 : ℚ)]) (some "wet") (some .strict)
        (some .ul1400_1_issue_1) = .error .undefinedDomainError)
    ∧ ((∃ rc, is_current_below_letgo (some [-(1 : ℚ)/1000]) (some .reasonable)
        (some .ul1400_1_issue_1) = .ok rc)
    ∧ (∃ rv, is_voltage_below_letgo (some [-(1 : ℚ)]) (some "wet") (some .reasonable)
        (some .ul1400_1_issue_1) = .ok rv)) :=
  ⟨(C3_negative_mean [-(1 : ℚ)/1000] [-(1 : ℚ)] .strict "wet"
      (by simp) (by simp) (by norm_num) (by norm_num) (Or.inl rfl)).1 (Or.inl rfl),
   (C3_negative_mean [-(1 : ℚ)/1000] [-(1 : ℚ)] .reasonable "wet"
      (by simp) (by simp) (by norm_num) (by norm_num) (Or.inl rfl)).2 (Or.inl rfl)⟩

/-- C4 counterexample: with absent values, an unsupported standard version
and an interpretation outside the four levels, the call returns
`Indeterminate` (Python `None`) instead of raising `ConfigurationError`:
the absent-values check precedes all validation. -/
theorem C4_absent_values_counterexample :
    is_current_below_letgo none none none = Except.ok none := rfl

/-- C4 (amended): whenever segment values are supplied, an unsupported
standard version, an interpretation outside the four defined levels, or (for
voltage) an environment outside `{wet, dry}` raises `ConfigurationError`
before any computation; when values are absent, the evaluators return
`Indeterminate` without validating the configuration. -/
theorem C4_configuration_validation (l : List ℚ) (env : Option String)
    (interp : Option Interpretation) (sv : Option StandardVersion) :
    ((sv ≠ some .ul1400_1_issue_1 ∨ interp = none) →
      is_current_below_letgo (some l) interp sv = .error .configurationError)
    ∧ ((sv ≠ some .ul1400_1_issue_1 ∨ interp = none
        ∨ (env ≠ some "wet" ∧ env ≠ some "dry")) →
      is_voltage_below_letgo (some l) env interp sv = .error .configurationError)
    ∧ is_current_below_letgo none interp sv = .ok none
    ∧ is_voltage_below_letgo none env interp sv = .ok none := by
  refine ⟨?_, ?_, rfl, rfl⟩
  · rintro (h | h)
    · simp [is_current_below_letgo, h]
    · subst h
      by_cases hsv : sv = some StandardVersion.ul1400_1_issue_1
      · subst hsv; simp [is_current_below_letgo]
      · simp [is_current_below_letgo, hsv]
  · rintro (h | h | h)
    · simp [is_voltage_below_letgo, h]
    · subst h
      by_cases hsv : sv = some StandardVersion.ul1400_1_issue_1
      · subst hsv; simp [is_voltage_below_letgo]
      · simp [is_voltage_below_letgo, hsv]
    · by_cases hsv : sv = some StandardVersion.ul1400_1_issue_1
      · subst hsv
        cases interp with
        | none => simp [is_voltage_below_letgo]
        | some i => simp [is_voltage_below_letgo, h.1, h.2]
      · simp [is_voltage_below_letgo, hsv]

/-- Witness for C4 (amended) at empty values with everything invalid. -/
theorem C4_configuration_validation_witness :
    is_current_below_letgo (some ([] : List ℚ)) none none = .error .configurationError
    ∧ is_voltage_below_letgo (some ([] : List ℚ)) none none none
      = .error .configurationError
    ∧ is_current_below_letgo none none none = .ok none
    ∧ is_voltage_below_letgo none none none none = .ok none := by
  have h := C4_configuration_validation ([] : List ℚ) none none none
  exact ⟨h.1 (Or.inl (by simp)), h.2.1 (Or.inl (by simp)), h.2.2.1, h.2.2.2⟩

/-- C6: `unionize_regions r1 r2` returns `None` iff `r1.end < r2.start` or
`r2.end < r1.start`, and otherwise returns `(min(starts), max(ends))`;
exact adjacency (a shared boundary value) is merged, not treated as
disjoint. -/
theorem C6_unionize_spec (r1 r2 : Region) (h1 : r1.1 ≤ r1.2) (h2 : r2.1 ≤ r2.2) :
    (unionize_regions r1 r2 = none ↔ (r1.2 < r2.1 ∨ r2.2 < r1.1))
    ∧ (¬ (r1.2 < r2.1 ∨ r2.2 < r1.1) →
        unionize_regions r1 r2 = some (min r1.1 r2.1, max r1.2 r2.2))
    ∧ ((r1.2 = r2.1 ∨ r2.2 = r1.1) →
        unionize_regions r1 r2 = some (min r1.1 r2.1, max r1.2 r2.2)) := by
  refine ⟨?_, ?_, ?_⟩
  · by_cases h : r1.2 < r2.1 ∨ r2.2 < r1.1 <;> simp [unionize_regions, h]
  · intro h; simp [unionize_regions, h]
  · intro h
    have hnd : ¬ (r1.2 < r2.1 ∨ r2.2 < r1.1) := by
      rcases h with h | h
      · push_neg
        exact ⟨by linarith, by linarith⟩
      · push_neg
        exact ⟨by linarith, by linarith⟩
    simp [unionize_regions, hnd]

/-! ### List minimum/maximum facts for Python `min`/`max` -/

lemma foldl_min_le_init (xs : List ℚ) (a : ℚ) : xs.foldl min a ≤ a := by
  induction xs generalizing a with
  | nil => exact le_refl a
  | cons x xs ih => exact le_trans (ih (min a x)) (min_le_left a x)

lemma foldl_min_le_mem (xs : List ℚ) (a x : ℚ) (hx : x ∈ xs) :
    xs.foldl min a ≤ x := by
  induction xs generalizing a with
  | nil => cases hx
  | cons y ys ih =>
    rcases List.mem_cons.mp hx with h | h
    · subst h
      exact le_trans (foldl_min_le_init ys (min a x)) (min_le_right a x)
    · exact ih (min a y) h

lemma foldl_min_eq_or_mem (xs : List ℚ) (a : ℚ) :
    xs.foldl min a = a ∨ xs.foldl min a ∈ xs := by
  induction xs generalizing a with
  | nil => exact Or.inl rfl
  | cons x xs ih =>
    rcases ih (min a x) with h | h
    · rcases min_choice a x with h2 | h2
      · exact Or.inl (h.trans h2)
      · exact Or.inr (by rw [List.foldl_cons, h, h2]; exact List.mem_cons_self x xs)
    · exact Or.inr (List.mem_cons_of_mem x h)

lemma foldl_max_le_init (xs : List ℚ) (a : ℚ) : a ≤ xs.foldl max a := by
  induction xs generalizing a with
  | nil => exact le_refl a
  | cons x xs ih => exact le_trans (le_max_left a x) (ih (max a x))

lemma foldl_max_le_mem (xs : List ℚ) (a x : ℚ) (hx : x ∈ xs) :
    x ≤ xs.foldl max a := by
  induction xs generalizing a with
  | nil => cases hx
  | cons y ys ih =>
    rcases List.mem_cons.mp hx with h | h
    · subst h
      exact le_trans (le_max_right a x) (foldl_max_le_init ys (max a x))
    · exact ih (max a y) h

lemma foldl_max_eq_or_mem (xs : List ℚ) (a : ℚ) :
    xs.foldl max a = a ∨ xs.foldl max a ∈ xs := by
  induction xs generalizing a with
  | nil => exact Or.inl rfl
  | cons x xs ih =>
    rcases ih (max a x) with h | h
    · rcases max_choice a x with h2 | h2
      · exact Or.inl (h.trans h2)
      · exact Or.inr (by rw [List.foldl_cons, h, h2]; exact List.mem_cons_self x xs)
    · exact Or.inr (List.mem_cons_of_mem x h)

lemma listMin_le (l : List ℚ) (x : ℚ) (hx : x ∈ l) : listMin l ≤ x := by
  cases l with
  | nil => cases hx
  | cons a as =>
    rcases List.mem_cons.mp hx with h | h
    · subst h; exact foldl_min_le_init as x
    · exact foldl_min_le_mem as a x h

lemma listMin_mem (l : List ℚ) (hl : l ≠ []) : listMin l ∈ l := by
  cases l with
  | nil => exact absurd rfl hl
  | cons a as =>
    rcases foldl_min_eq_or_mem as a with h | h
    · rw [listMin, h]; exact List.mem_cons_self a as
    · exact List.mem_cons_of_mem a h

lemma le_listMax (l : List ℚ) (x : ℚ) (hx : x ∈ l) : x ≤ listMax l := by
  cases l with
  | nil => cases hx
  | cons a as =>
    rcases List.mem_cons.mp hx with h | h
    · subst h; exact foldl_max_le_init as x
    · exact foldl_max_le_mem as a x h

lemma listMax_mem (l : List ℚ) (hl : l ≠ []) : listMax l ∈ l := by
  cases l with
  | nil => exact absurd rfl hl
  | cons a as =>
    rcases foldl_max_eq_or_mem as a with h | h
    · rw [listMax, h]; exact List.mem_cons_self a as
    · exact List.mem_cons_of_mem a h

lemma minKey_le (l : List KV) (kv : KV) (h : kv ∈ l) : minKey l ≤ kv.1 :=
  listMin_le _ _ (List.mem_map_of_mem Prod.fst h)

lemma le_maxKey (l : List KV) (kv : KV) (h : kv ∈ l) : kv.1 ≤ maxKey l :=
  le_listMax _ _ (List.mem_map_of_mem Prod.fst h)

lemma minKey_mem (l : List KV) (hl : l ≠ []) : ∃ kv ∈ l, kv.1 = minKey l := by
  have h := listMin_mem (l.map Prod.fst) (by simpa using hl)
  obtain ⟨kv, hkv, hfst⟩ := List.mem_map.mp h
  exact ⟨kv, hkv, hfst⟩

lemma maxKey_mem (l : List KV) (hl : l ≠ []) : ∃ kv ∈ l, kv.1 = maxKey l := by
  have h := listMax_mem (l.map Prod.fst) (by simpa using hl)
  obtain ⟨kv, hkv, hfst⟩ := List.mem_map.mp h
  exact ⟨kv, hkv, hfst⟩

lemma minKey_append_single (l : List KV) (kv : KV) (hl : l ≠ []) :
    minKey (l ++ [kv]) = min (minKey l) kv.1 := by
  cases l with
  | nil => exact absurd rfl hl
  | cons a as => simp [minKey, listMin, List.foldl_append]

lemma maxKey_append_single (l : List KV) (kv : KV) (hl : l ≠ []) :
    maxKey (l ++ [kv]) = max (maxKey l) kv.1 := by
  cases l with
  | nil => exact absurd rfl hl
  | cons a as => simp [maxKey, listMax, List.foldl_append]

lemma minKey_le_maxKey (l : List KV) (hl : l ≠ []) : minKey l ≤ maxKey l := by
  obtain ⟨kv, hkv, hfst⟩ := minKey_mem l hl
  calc minKey l = kv.1 := hfst.symm
    _ ≤ maxKey l := le_maxKey l kv hkv

/-! ### Region merging: structural lemmas for C5 -/

/-- A point `q` lies in (the union of) the regions of `l`. -/
def coversPt (l : List Region) (q : ℚ) : Prop :=
  ∃ r ∈ l, r.1 ≤ q ∧ q ≤ r.2

/-- Every pair of distinct positions holds disjoint, non-adjacent regions. -/
def Separated (l : List Region) : Prop :=
  l.Pairwise (fun a b => unionize_regions a b = none)

/-- Every region of the list is well-formed (`start ≤ end`). -/
def ValidL (l : List Region) : Prop := ∀ r ∈ l, r.1 ≤ r.2

lemma unionize_none_iff (a b : Region) :
    unionize_regions a b = none ↔ (a.2 < b.1 ∨ b.2 < a.1) := by
  by_cases h : a.2 < b.1 ∨ b.2 < a.1 <;> simp [unionize_regions, h]

lemma unionize_some_eq (a b u : Region) (h : unionize_regions a b = some u) :
    u = (min a.1 b.1, max a.2 b.2) ∧ ¬ (a.2 < b.1 ∨ b.2 < a.1) := by
  by_cases hd : a.2 < b.1 ∨ b.2 < a.1
  · simp [unionize_regions, hd] at h
  · simp [unionize_regions, hd] at h
    exact ⟨h.symm, hd⟩

lemma unionize_symm_none (a b : Region) :
    unionize_regions a b = none ↔ unionize_regions b a = none := by
  rw [unionize_none_iff, unionize_none_iff, or_comm]

/-- The merged interval of an overlapped or adjacent pair of valid regions
covers exactly the union of the two. -/
lemma unionize_covers (a b u : Region) (ha : a.1 ≤ a.2) (hb : b.1 ≤ b.2)
    (h : unionize_regions a b = some u) (q : ℚ) :
    (u.1 ≤ q ∧ q ≤ u.2) ↔ ((a.1 ≤ q ∧ q ≤ a.2) ∨ (b.1 ≤ q ∧ q ≤ b.2)) := by
  obtain ⟨hu, hnd⟩ := unionize_some_eq a b u h
  push_neg at hnd
  subst hu
  simp only [min_le_iff, le_max_iff]
  constructor
  · rintro ⟨h1 | h1, h2 | h2⟩
    · exact Or.inl ⟨h1, h2⟩
    · rcases le_or_lt q a.2 with hq | hq
      · exact Or.inl ⟨h1, hq⟩
      · exact Or.inr ⟨by linarith [hnd.1], h2⟩
    · rcases le_or_lt q b.2 with hq | hq
      · exact Or.inr ⟨h1, hq⟩
      · exact Or.inl ⟨by linarith [hnd.2], h2⟩
    · exact Or.inr ⟨h1, h2⟩
  · rintro (⟨h1, h2⟩ | ⟨h1, h2⟩)
    · exact ⟨Or.inl h1, Or.inl h2⟩
    · exact ⟨Or.inr h1, Or.inr h2⟩

lemma findUnionPartner_none_iff (x : Region) (ys : List Region) :
    findUnionPartner x ys = none ↔ ∀ y ∈ ys, unionize_regions x y = none := by
  induction ys with
  | nil => simp [findUnionPartner]
  | cons y ys ih =>
    rw [findUnionPartner]
    cases hu : unionize_regions x y with
    | some u => simp [hu]
    | none => simpa [hu] using ih

lemma findUnionPartner_some (x : Region) (ys : List Region) (y u : Region)
    (h : findUnionPartner x ys = some (y, u)) :
    y ∈ ys ∧ unionize_regions x y = some u := by
  induction ys with
  | nil => simp [findUnionPartner] at h
  | cons z zs ih =>
    rw [findUnionPartner] at h
    cases hu : unionize_regions x z with
    | some v =>
      rw [hu] at h
      obtain ⟨h1, h2⟩ := Prod.mk.injEq .. ▸ (Option.some.injEq .. ▸ h)
      exact ⟨by rw [← h1]; exact List.mem_cons_self z zs, by rw [← h1, ← h2]; exact hu⟩
    | none =>
      rw [hu] at h
      obtain ⟨h1, h2⟩ := ih h
      exact ⟨List.mem_cons_of_mem z h1, h2⟩

lemma findMergeable_none_iff (l : List Region) :
    findMergeable l = none ↔ Separated l := by
  induction l with
  | nil => simp [findMergeable, Separated]
  | cons x xs ih =>
    rw [findMergeable]
    cases hp : findUnionPartner x xs with
    | some yu =>
      obtain ⟨hy, hu⟩ := findUnionPartner_some x xs yu.1 yu.2 (by rw [hp])
      simp only [Separated, List.pairwise_cons]
      constructor
      · intro h; cases h
      · rintro ⟨hall, _⟩
        rw [hall yu.1 hy] at hu
        cases hu
    | none =>
      have hall := (findUnionPartner_none_iff x xs).mp hp
      simp only [Separated, List.pairwise_cons]
      constructor
      · intro h; exact ⟨hall, (ih.mp h)⟩
      · rintro ⟨_, h⟩; exact ih.mpr h

lemma findMergeable_some (l : List Region) (x y u : Region)
    (h : findMergeable l = some (x, y, u)) :
    ∃ l₁ l₂, l = l₁ ++ x :: l₂ ∧ y ∈ l₂ ∧ unionize_regions x y = some u := by
  induction l with
  | nil => simp [findMergeable] at h
  | cons z zs ih =>
    rw [findMergeable] at h
    cases hp : findUnionPartner z zs with
    | some yu =>
      obtain ⟨y', u'⟩ := yu
      rw [hp] at h
      obtain ⟨hy, hu⟩ := findUnionPartner_some z zs y' u' (by rw [hp])
      simp only [Option.some.injEq, Prod.mk.injEq] at h
      obtain ⟨h1, h2, h3⟩ := h
      refine ⟨[], zs, ?_, ?_, ?_⟩
      · rw [h1]; rfl
      · rw [← h2]; exact hy
      · rw [← h1, ← h2, ← h3]; exact hu
    | none =>
      rw [hp] at h
      obtain ⟨l₁, l₂, hl, hy, hu⟩ := ih h
      exact ⟨z :: l₁, l₂, by rw [hl]; rfl, hy, hu⟩

lemma mem_erase_append (l₁ l₂ : List Region) (x y : Region) (hy : y ∈ l₂) :
    y ∈ ((l₁ ++ x :: l₂).erase x) := by
  by_cases hx : x ∈ l₁
  · rw [List.erase_append_left _ hx]
    exact List.mem_append_right _ (List.mem_cons_of_mem x hy)
  · rw [List.erase_append_right _ hx, List.erase_cons_head]
    exact List.mem_append_right _ hy

lemma findMergeable_mem (l : List Region) (x y u : Region)
    (h : findMergeable l = some (x, y, u)) :
    x ∈ l ∧ y ∈ l.erase x ∧ unionize_regions x y = some u := by
  obtain ⟨l₁, l₂, hl, hy, hu⟩ := findMergeable_some l x y u h
  subst hl
  exact ⟨List.mem_append_right _ (List.mem_cons_self x l₂),
    mem_erase_append l₁ l₂ x y hy, hu⟩

lemma step_length (l : List Region) (x y u : Region)
    (hx : x ∈ l) (hy : y ∈ l.erase x) :
    (((l.erase x).erase y) ++ [u]).length = l.length - 1 := by
  have h1 : 1 ≤ (l.erase x).length := List.length_pos.mpr (List.ne_nil_of_mem hy)
  have h2 : (l.erase x).length = l.length - 1 := List.length_erase_of_mem hx
  have h3 : ((l.erase x).erase y).length = (l.erase x).length - 1 :=
    List.length_erase_of_mem hy
  rw [List.length_append, h3, h2, List.length_singleton]
  omega

lemma step_valid (l : List Region) (x y u : Region) (hval : ValidL l)
    (hfm : findMergeable l = some (x, y, u)) :
    ValidL (((l.erase x).erase y) ++ [u]) := by
  obtain ⟨hx, hy, hu⟩ := findMergeable_mem l x y u hfm
  intro r hr
  rcases List.mem_append.mp hr with h | h
  · exact hval r (List.mem_of_mem_erase (List.mem_of_mem_erase h))
  · have hru : r = u := by simpa using h
    rw [hru]
    obtain ⟨hueq, _⟩ := unionize_some_eq x y u hu
    rw [hueq]
    have h1 : min x.1 y.1 ≤ x.1 := min_le_left _ _
    have h2 : x.2 ≤ max x.2 y.2 := le_max_left _ _
    exact le_trans h1 (le_trans (hval x hx) h2)

lemma step_covers (l : List Region) (x y u : Region) (hval : ValidL l)
    (hfm : findMergeable l = some (x, y, u)) (q : ℚ) :
    coversPt (((l.erase x).erase y) ++ [u]) q ↔ coversPt l q := by
  obtain ⟨hx, hy, hu⟩ := findMergeable_mem l x y u hfm
  have hxv : x.1 ≤ x.2 := hval x hx
  have hyv : y.1 ≤ y.2 := hval y (List.mem_of_mem_erase hy)
  have hcov := unionize_covers x y u hxv hyv hu q
  constructor
  · rintro ⟨r, hr, h1, h2⟩
    rcases List.mem_append.mp hr with h | h
    · exact ⟨r, List.mem_of_mem_erase (List.mem_of_mem_erase h), h1, h2⟩
    · have hru : r = u := by simpa using h
      subst hru
      rcases hcov.mp ⟨h1, h2⟩ with h | h
      · exact ⟨x, hx, h⟩
      · exact ⟨y, List.mem_of_mem_erase hy, h⟩
  · rintro ⟨r, hr, h1, h2⟩
    by_cases hrx : r = x
    · subst hrx
      exact ⟨u, List.mem_append_right _ (List.mem_singleton_self u),
        hcov.mpr (Or.inl ⟨h1, h2⟩)⟩
    · by_cases hry : r = y
      · subst hry
        exact ⟨u, List.mem_append_right _ (List.mem_singleton_self u),
          hcov.mpr (Or.inr ⟨h1, h2⟩)⟩
      · have hr1 : r ∈ l.erase x := (List.mem_erase_of_ne hrx).mpr hr
        have hr2 : r ∈ (l.erase x).erase y := (List.mem_erase_of_ne hry).mpr hr1
        exact ⟨r, List.mem_append_left _ hr2, h1, h2⟩

lemma mergeLoop_valid (n : Nat) (l : List Region) (h : ValidL l) :
    ValidL (mergeLoop n l) := by
  induction n generalizing l with
  | zero => exact h
  | succ n ih =>
    rw [mergeLoop]
    cases hfm : findMergeable l with
    | none => exact h
    | some xyu =>
      obtain ⟨x, y, u⟩ := xyu
      exact ih _ (step_valid l x y u h hfm)

lemma mergeLoop_covers (n : Nat) (l : List Region) (h : ValidL l) (q : ℚ) :
    coversPt (mergeLoop n l) q ↔ coversPt l q := by
  induction n generalizing l with
  | zero => exact Iff.rfl
  | succ n ih =>
    rw [mergeLoop]
    cases hfm : findMergeable l with
    | none => exact Iff.rfl
    | some xyu =>
      obtain ⟨x, y, u⟩ := xyu
      exact (ih _ (step_valid l x y u h hfm)).trans (step_covers l x y u h hfm q)

lemma mergeLoop_none (n : Nat) (l : List Region) (h : findMergeable l = none) :
    mergeLoop n l = l := by
  cases n with
  | zero => rfl
  | succ n => rw [mergeLoop, h]

lemma mergeLoop_findMergeable (n : Nat) (l : List Region)
    (hn : l.length ≤ n + 1) : findMergeable (mergeLoop n l) = none := by
  induction n generalizing l with
  | zero =>
    cases l with
    | nil => rfl
    | cons a as =>
      cases as with
      | nil => rfl
      | cons b bs => simp at hn
  | succ n ih =>
    rw [mergeLoop]
    cases hfm : findMergeable l with
    | none => exact hfm
    | some xyu =>
      obtain ⟨x, y, u⟩ := xyu
      obtain ⟨hx, hy, _⟩ := findMergeable_mem l x y u hfm
      refine ih _ ?_
      rw [step_length l x y u hx hy]
      omega

lemma merge_regions_valid (l : List Region) (h : ValidL l) :
    ValidL (merge_regions l) :=
  mergeLoop_valid l.length l h

lemma merge_regions_covers (l : List Region) (h : ValidL l) (q : ℚ) :
    coversPt (merge_regions l) q ↔ coversPt l q :=
  mergeLoop_covers l.length l h q

lemma merge_regions_separated (l : List Region) :
    Separated (merge_regions l) :=
  (findMergeable_none_iff _).mp (mergeLoop_findMergeable l.length l (by omega))

lemma merge_regions_idem (l : List Region) :
    merge_regions (merge_regions l) = merge_regions l :=
  mergeLoop_none _ _ (mergeLoop_findMergeable l.length l (by omega))

lemma merge_regions_nil : merge_regions ([] : List Region) = [] := rfl

lemma separated_members (B : List Region) (hB : Separated B) {x y : Region}
    (hx : x ∈ B) (hy : y ∈ B) (hne : x ≠ y) : unionize_regions x y = none := by
  have hsymm : Symmetric (fun a b : Region => unionize_regions a b = none) :=
    fun a b h => (unionize_symm_none a b).mp h
  exact hB.forall hsymm hx hy hne

/-- In two separated valid families with the covering of the first contained
in the covering of the second, a region of the first that starts inside a
region of the second also ends inside it. -/
lemma sep_cover_right_bound (A B : List Region) (hBv : ValidL B)
    (hB : Separated B) (hcov : ∀ q, coversPt A q → coversPt B q)
    (a b c d : ℚ) (hab : (a, b) ∈ A) (hcd : (c, d) ∈ B) (had : a ≤ d) :
    b ≤ d := by
  by_contra hbd
  push_neg at hbd
  have hdc : c ≤ d := hBv (c, d) hcd
  have key : ∀ q : ℚ, d < q → q ≤ b → ∃ r : Region, r ∈ B ∧ d < r.1 ∧ r.1 ≤ q := by
    intro q hq1 hq2
    have haq : a ≤ q := le_trans had (le_of_lt hq1)
    obtain ⟨r, hrB, hr1, hr2⟩ := hcov q ⟨(a, b), hab, haq, hq2⟩
    refine ⟨r, hrB, ?_, hr1⟩
    have hfq : d < r.2 := lt_of_lt_of_le hq1 hr2
    have hne : r ≠ (c, d) := by
      intro hEq
      rw [hEq] at hfq
      exact lt_irrefl d hfq
    have hsep := separated_members B hB hrB hcd hne
    rw [unionize_none_iff] at hsep
    rcases hsep with h | h
    · exfalso; linarith
    · exact h
  obtain ⟨r0, hr0B, hr0d, hr0b⟩ := key b hbd (le_refl b)
  set S := B.filter (fun r => decide (d < r.1 ∧ r.1 ≤ b)) with hS
  have hr0S : r0 ∈ S := by
    rw [hS, List.mem_filter]
    exact ⟨hr0B, by simp only [decide_eq_true_eq]; exact ⟨hr0d, hr0b⟩⟩
  have hSne : (S.map Prod.fst) ≠ [] := by
    intro hmap
    have hSnil : S = [] := by
      cases hSn : S with
      | nil => rfl
      | cons s ss => rw [hSn] at hmap; simp at hmap
    rw [hSnil] at hr0S
    cases hr0S
  set e0 := listMin (S.map Prod.fst) with he0
  obtain ⟨re, hreS, hre⟩ := List.mem_map.mp (listMin_mem _ hSne)
  have hreP := List.mem_filter.mp (hS ▸ hreS)
  have hreC : d < re.1 ∧ re.1 ≤ b := by
    have := hreP.2
    simpa using this
  have hde0 : d < e0 := by rw [he0, ← hre]; exact hreC.1
  have he0b : e0 ≤ b := by rw [he0, ← hre]; exact hreC.2
  obtain ⟨r, hrB, hrd, hrq⟩ := key ((d + e0) / 2) (by linarith) (by linarith)
  have hrS : r ∈ S := by
    rw [hS, List.mem_filter]
    refine ⟨hrB, ?_⟩
    simp only [decide_eq_true_eq]
    exact ⟨hrd, by linarith⟩
  have hmin : e0 ≤ r.1 := listMin_le _ _ (List.mem_map_of_mem Prod.fst hrS)
  linarith

/-- Mirror image of `sep_cover_right_bound` on the left endpoint. -/
lemma sep_cover_left_bound (A B : List Region) (hBv : ValidL B)
    (hB : Separated B) (hcov : ∀ q, coversPt A q → coversPt B q)
    (a b c d : ℚ) (hab : (a, b) ∈ A) (hcd : (c, d) ∈ B) (hcb : c ≤ b) :
    c ≤ a := by
  by_contra hca
  push_neg at hca
  have hdc : c ≤ d := hBv (c, d) hcd
  have key : ∀ q : ℚ, a ≤ q → q < c → ∃ r : Region, r ∈ B ∧ r.2 < c ∧ q ≤ r.2 := by
    intro q hq1 hq2
    obtain ⟨r, hrB, hr1, hr2⟩ :=
      hcov q ⟨(a, b), hab, hq1, le_trans (le_of_lt hq2) hcb⟩
    refine ⟨r, hrB, ?_, hr2⟩
    have heq : r.1 < c := lt_of_le_of_lt hr1 hq2
    have hne : r ≠ (c, d) := by
      intro hEq
      rw [hEq] at heq
      exact lt_irrefl c heq
    have hsep := separated_members B hB hrB hcd hne
    rw [unionize_none_iff] at hsep
    rcases hsep with h | h
    · exact h
    · exfalso; linarith
  obtain ⟨r0, hr0B, hr0c, hr0a⟩ := key a (le_refl a) hca
  set S := B.filter (fun r => decide (a ≤ r.2 ∧ r.2 < c)) with hS
  have hr0S : r0 ∈ S := by
    rw [hS, List.mem_filter]
    exact ⟨hr0B, by simp only [decide_eq_true_eq]; exact ⟨hr0a, hr0c⟩⟩
  have hSne : (S.map Prod.snd) ≠ [] := by
    intro hmap
    have hSnil : S = [] := by
      cases hSn : S with
      | nil => rfl
      | cons s ss => rw [hSn] at hmap; simp at hmap
    rw [hSnil] at hr0S
    cases hr0S
  set f0 := listMax (S.map Prod.snd) with hf0
  obtain ⟨re, hreS, hre⟩ := List.mem_map.mp (listMax_mem _ hSne)
  have hreP := List.mem_filter.mp (hS ▸ hreS)
  have hreC : a ≤ re.2 ∧ re.2 < c := by
    have := hreP.2
    simpa using this
  have haf0 : a ≤ f0 := by rw [hf0, ← hre]; exact hreC.1
  have hf0c : f0 < c := by rw [hf0, ← hre]; exact hreC.2
  obtain ⟨r, hrB, hrc, hrq⟩ := key ((f0 + c) / 2) (by linarith) (by linarith)
  have hrS : r ∈ S := by
    rw [hS, List.mem_filter]
    refine ⟨hrB, ?_⟩
    simp only [decide_eq_true_eq]
    exact ⟨by linarith, hrc⟩
  have hmax : r.2 ≤ f0 := le_listMax _ _ (List.mem_map_of_mem Prod.snd hrS)
  linarith

/-- Two separated valid families with the same covering have the same
members: each region of one is a region of the other. -/
lemma sep_cover_subset (A B : List Region) (hAv : ValidL A) (hBv : ValidL B)
    (hA : Separated A) (hB : Separated B)
    (hcov : ∀ q, coversPt A q ↔ coversPt B q) :
    ∀ r ∈ A, r ∈ B := by
  rintro ⟨a, b⟩ hab
  have hvab : a ≤ b := hAv (a, b) hab
  obtain ⟨⟨c, d⟩, hcd, hc, hd⟩ := (hcov a).mp ⟨(a, b), hab, le_refl a, hvab⟩
  have h1 : b ≤ d :=
    sep_cover_right_bound A B hBv hB (fun q => (hcov q).mp) a b c d hab hcd hd
  have h2 : d ≤ b :=
    sep_cover_right_bound B A hAv hA (fun q => (hcov q).mpr) c d a b hcd hab
      (le_trans hc hvab)
  have h3 : a ≤ c :=
    sep_cover_left_bound B A hAv hA (fun q => (hcov q).mpr) c d a b hcd hab hd
  have hac : a = c := le_antisymm h3 hc
  have hbd : b = d := le_antisymm h1 h2
  rw [hac, hbd]
  exact hcd

lemma sep_cover_unique (A B : List Region) (hAv : ValidL A) (hBv : ValidL B)
    (hA : Separated A) (hB : Separated B)
    (hcov : ∀ q, coversPt A q ↔ coversPt B q) :
    ∀ r, r ∈ A ↔ r ∈ B :=
  fun r => ⟨fun h => sep_cover_subset A B hAv hBv hA hB hcov r h,
    fun h => sep_cover_subset B A hBv hAv hB hA (fun q => (hcov q).symm) r h⟩

lemma coversPt_perm {R2 R : List Region} (h : R2.Perm R) (q : ℚ) :
    coversPt R2 q ↔ coversPt R q := by
  constructor <;> rintro ⟨r, hr, h1, h2⟩
  · exact ⟨r, h.mem_iff.mp hr, h1, h2⟩
  · exact ⟨r, h.mem_iff.mpr hr, h1, h2⟩

/-- C5: for every finite list `R` of well-formed regions, `merge_regions R`
is the unique minimal family of pairwise-disjoint, non-adjacent regions with
the same union as `R` (any separated valid family with the same union has
exactly the same members); consequently `merge_regions` is idempotent, and
merging any permutation of `R` yields the same final set of regions. -/
theorem C5_merge_regions_minimal (R : List Region)
    (hval : ∀ r ∈ R, r.1 ≤ r.2) :
    (∀ r ∈ merge_regions R, r.1 ≤ r.2)
    ∧ Separated (merge_regions R)
    ∧ (∀ q, coversPt (merge_regions R) q ↔ coversPt R q)
    ∧ (∀ B : List Region, (∀ r ∈ B, r.1 ≤ r.2) → Separated B →
        (∀ q, coversPt B q ↔ coversPt R q) →
        ∀ r, r ∈ B ↔ r ∈ merge_regions R)
    ∧ merge_regions (merge_regions R) = merge_regions R
    ∧ (∀ R2 : List Region, R2.Perm R →
        ∀ r, r ∈ merge_regions R2 ↔ r ∈ merge_regions R) := by
  have hv := merge_regions_valid R hval
  have hs := merge_regions_separated R
  have hc := merge_regions_covers R hval
  refine ⟨hv, hs, hc, ?_, merge_regions_idem R, ?_⟩
  · intro B hBv hBs hBc
    exact sep_cover_unique B (merge_regions R) hBv hv hBs hs
      (fun q => (hBc q).trans (hc q).symm)
  · intro R2 hperm
    have hval2 : ValidL R2 := fun r hr => hval r (hperm.mem_iff.mp hr)
    exact sep_cover_unique (merge_regions R2) (merge_regions R)
      (merge_regions_valid R2 hval2) hv (merge_regions_separated R2) hs
      (fun q => ((merge_regions_covers R2 hval2 q).trans
        (coversPt_perm hperm q)).trans (hc q).symm)

/-- Witness for C5 at the adjacent pair list `[(0,5), (5,10)]`. -/
theorem C5_merge_regions_minimal_witness :
    (∀ r ∈ merge_regions [((0 : ℚ), (5 : ℚ)), (5, 10)], r.1 ≤ r.2)
    ∧ Separated (merge_regions [((0 : ℚ), (5 : ℚ)), (5, 10)])
    ∧ (∀ q, coversPt (merge_regions [((0 : ℚ), (5 : ℚ)), (5, 10)]) q
        ↔ coversPt [((0 : ℚ), (5 : ℚ)), (5, 10)] q)
    ∧ (∀ B : List Region, (∀ r ∈ B, r.1 ≤ r.2) → Separated B →
        (∀ q, coversPt B q ↔ coversPt [((0 : ℚ), (5 : ℚ)), (5, 10)] q) →
        ∀ r, r ∈ B ↔ r ∈ merge_regions [((0 : ℚ), (5 : ℚ)), (5, 10)])
    ∧ merge_regions (merge_regions [((0 : ℚ), (5 : ℚ)), (5, 10)])
      = merge_regions [((0 : ℚ), (5 : ℚ)), (5, 10)]
    ∧ (∀ R2 : List Region, R2.Perm [((0 : ℚ), (5 : ℚ)), (5, 10)] →
        ∀ r, r ∈ merge_regions R2 ↔ r ∈ merge_regions [((0 : ℚ), (5 : ℚ)), (5, 10)]) :=
  C5_merge_regions_minimal [((0 : ℚ), (5 : ℚ)), (5, 10)]
    (by intro r hr; simp only [List.mem_cons, List.mem_singleton] at hr
        rcases hr with h | h | h <;> first | (subst h; norm_num) | cases h)

/-! ### Segment extraction: termination and the extraction invariant -/

/-- Number of waveform points strictly before `m` (the points still available
to a `"start"`-direction extension). -/
def belowCount (w : List KV) (m : ℚ) : Nat :=
  (w.filter (fun kv => decide (kv.1 < m))).length

/-- Number of waveform points strictly after `m`. -/
def aboveCount (w : List KV) (m : ℚ) : Nat :=
  (w.filter (fun kv => decide (m < kv.1))).length

lemma filter_length_mono (l : List KV) (p q : KV → Bool)
    (h : ∀ a ∈ l, p a = true → q a = true) :
    (l.filter p).length ≤ (l.filter q).length := by
  induction l with
  | nil => exact le_refl 0
  | cons a as ih =>
    have ih2 := ih (fun x hx => h x (List.mem_cons_of_mem a hx))
    by_cases hpa : p a = true
    · rw [List.filter_cons_of_pos hpa, List.filter_cons_of_pos (h a (List.mem_cons_self a as) hpa)]
      simpa using ih2
    · rw [List.filter_cons_of_neg (by simpa using hpa)]
      by_cases hqa : q a = true
      · rw [List.filter_cons_of_pos hqa]
        exact le_trans ih2 (by simp)
      · rw [List.filter_cons_of_neg (by simpa using hqa)]
        exact ih2

lemma filter_length_lt (l : List KV) (p q : KV → Bool)
    (h : ∀ a ∈ l, p a = true → q a = true)
    (x : KV) (hx : x ∈ l) (hqx : q x = true) (hpx : p x = false) :
    (l.filter p).length < (l.filter q).length := by
  induction l with
  | nil => cases hx
  | cons a as ih =>
    have hmono := filter_length_mono as p q (fun y hy => h y (List.mem_cons_of_mem a hy))
    rcases List.mem_cons.mp hx with hxa | hxas
    · subst hxa
      rw [List.filter_cons_of_neg (by simp [hpx]), List.filter_cons_of_pos hqx]
      simpa using Nat.lt_succ_of_le hmono
    · have ih2 := ih (fun y hy => h y (List.mem_cons_of_mem a hy)) hxas
      by_cases hpa : p a = true
      · rw [List.filter_cons_of_pos hpa, List.filter_cons_of_pos (h a (List.mem_cons_self a as) hpa)]
        simpa using ih2
      · rw [List.filter_cons_of_neg (by simpa using hpa)]
        by_cases hqa : q a = true
        · rw [List.filter_cons_of_pos hqa]
          exact lt_of_lt_of_le ih2 (by simp)
        · rw [List.filter_cons_of_neg (by simpa using hqa)]
          exact ih2

lemma mem_filter_kv {w : List KV} {kv : KV} {P : KV → Prop} [DecidablePred P] :
    kv ∈ w.filter (fun kv => decide (P kv)) ↔ kv ∈ w ∧ P kv := by
  rw [List.mem_filter]
  simp

/-- With `"start"` direction, `belowCount`-many iterations suffice: each loop
pass adds one strictly earlier waveform point. -/
lemma segLoop_start_isSome (w : List KV) (dur : ℚ) :
    ∀ (fuel : Nat) (seg : List KV), belowCount w (minKey seg) < fuel →
      (segLoop w dur "start" fuel seg).isSome = true := by
  intro fuel
  induction fuel with
  | zero => intro seg h; cases h
  | succ n ih =>
    intro seg hcnt
    simp only [segLoop]
    by_cases hne : seg = []
    · simp [hne]
    · rw [if_neg hne]
      by_cases hspan : maxKey seg - minKey seg < dur
      · rw [if_pos hspan]
        simp only [if_true]
        by_cases hearlier : w.filter (fun kv => decide (kv.1 < minKey seg)) = []
        · simp [hearlier]
        · rw [if_neg hearlier]
          set earlier := w.filter (fun kv => decide (kv.1 < minKey seg)) with he
          obtain ⟨kvE, hkvE, hkvE1⟩ := maxKey_mem earlier hearlier
          have hkvEw : kvE ∈ w ∧ kvE.1 < minKey seg := mem_filter_kv.mp (he ▸ hkvE)
          have hlt : maxKey earlier < minKey seg := by
            rw [← hkvE1]; exact hkvEw.2
          apply ih
          have hmk : minKey (seg ++ [(maxKey earlier, wlookup w (maxKey earlier))])
              = maxKey earlier := by
            rw [minKey_append_single seg _ hne]
            exact min_eq_right (le_of_lt hlt)
          rw [hmk]
          have hdec : belowCount w (maxKey earlier) < belowCount w (minKey seg) := by
            apply filter_length_lt w _ _ ?_ kvE hkvEw.1 ?_ ?_
            · intro a _ ha
              simp only [decide_eq_true_eq] at ha ⊢
              exact lt_trans ha hlt
            · simp only [decide_eq_true_eq]
              exact hkvEw.2
            · simp only [decide_eq_false_iff_not, not_lt, hkvE1]
              exact le_refl _
          omega
      · rw [if_neg hspan]
        rfl

/-- With `"end"` direction, `aboveCount`-many iterations suffice. -/
lemma segLoop_end_isSome (w : List KV) (dur : ℚ) :
    ∀ (fuel : Nat) (seg : List KV), aboveCount w (maxKey seg) < fuel →
      (segLoop w dur "end" fuel seg).isSome = true := by
  intro fuel
  induction fuel with
  | zero => intro seg h; cases h
  | succ n ih =>
    intro seg hcnt
    simp only [segLoop]
    by_cases hne : seg = []
    · simp [hne]
    · rw [if_neg hne]
      by_cases hspan : maxKey seg - minKey seg < dur
      · rw [if_pos hspan]
        simp only [if_true]
        by_cases hlater : w.filter (fun kv => decide (maxKey seg < kv.1)) = []
        · simp [hlater]
        · rw [if_neg hlater]
          set later := w.filter (fun kv => decide (maxKey seg < kv.1)) with hl
          obtain ⟨kvL, hkvL, hkvL1⟩ := minKey_mem later hlater
          have hkvLw : kvL ∈ w ∧ maxKey seg < kvL.1 := mem_filter_kv.mp (hl ▸ hkvL)
          have hlt : maxKey seg < minKey later := by
            rw [← hkvL1]; exact hkvLw.2
          apply ih
          have hmk : maxKey (seg ++ [(minKey later, wlookup w (minKey later))])
              = minKey later := by
            rw [maxKey_append_single seg _ hne]
            exact max_eq_right (le_of_lt hlt)
          rw [hmk]
          have hdec : aboveCount w (minKey later) < aboveCount w (maxKey seg) := by
            apply filter_length_lt w _ _ ?_ kvL hkvLw.1 ?_ ?_
            · intro a _ ha
              simp only [decide_eq_true_eq] at ha ⊢
              exact lt_trans hlt ha
            · simp only [decide_eq_true_eq]
              exact hkvLw.2
            · simp only [decide_eq_false_iff_not, not_lt, hkvL1]
              exact le_refl _
          omega
      · rw [if_neg hspan]
        rfl

/-- For a direction other than `"start"`/`"end"`, a loop pass leaves the
segment unchanged, so once the guard holds no iteration bound is reached:
the Python loop never terminates. -/
lemma segLoop_other_diverges (w : List KV) (dur : ℚ) (dir : String)
    (h1 : dir ≠ "start") (h2 : dir ≠ "end") :
    ∀ (fuel : Nat) (seg : List KV), seg ≠ [] →
      maxKey seg - minKey seg < dur → segLoop w dur dir fuel seg = none := by
  intro fuel
  induction fuel with
  | zero => intro seg _ _; rfl
  | succ n ih =>
    intro seg hne hspan
    simp only [segLoop]
    rw [if_neg hne, if_pos hspan, if_neg h1, if_neg h2]
    exact ih seg hne hspan

/-- C10: the extraction loop of `get_segment_from_waveform` terminates for
every waveform and initial segment when `direction_to_extend_beyond` is
`"start"` or `"end"` (each iteration adds one strictly earlier/later point or
fails to `None`); for any other direction value, whenever the current segment
is non-empty with time span below `min_duration`, a loop pass adds no point,
so no iteration bound suffices — the function does not terminate. -/
theorem C10_loop_termination :
    (∀ (w : List KV) (dur : ℚ) (dir : String) (seg : List KV),
        dir = "start" ∨ dir = "end" →
        ∃ fuel, (segLoop w dur dir fuel seg).isSome = true)
    ∧ (∀ (w : List KV) (dur : ℚ) (dir : String) (seg : List KV),
        dir ≠ "start" → dir ≠ "end" → seg ≠ [] →
        maxKey seg - minKey seg < dur →
        ∀ fuel, segLoop w dur dir fuel seg = none) := by
  constructor
  · intro w dur dir seg hdir
    rcases hdir with h | h <;> subst h
    · exact ⟨belowCount w (minKey seg) + 1,
        segLoop_start_isSome w dur _ seg (Nat.lt_succ_self _)⟩
    · exact ⟨aboveCount w (maxKey seg) + 1,
        segLoop_end_isSome w dur _ seg (Nat.lt_succ_self _)⟩
  · intro w dur dir seg h1 h2 hne hspan fuel
    exact segLoop_other_diverges w dur dir h1 h2 fuel seg hne hspan

/-- Witness for C10: termination at a concrete `"start"` input, divergence of
every iteration bound at the direction string `"up"`. -/
theorem C10_loop_termination_witness :
    (∃ fuel, (segLoop [] 1 "start" fuel [((0 : ℚ), (7 : ℚ))]).isSome = true)
    ∧ segLoop [] 1 "up" 5 [((0 : ℚ), (7 : ℚ))] = none := by
  constructor
  · exact C10_loop_termination.1 [] 1 "start" [((0 : ℚ), (7 : ℚ))] (Or.inl rfl)
  · exact C10_loop_termination.2 [] 1 "up" [((0 : ℚ), (7 : ℚ))]
      (by simp) (by simp) (by simp)
      (by norm_num [maxKey, minKey, listMax, listMin]) 5

lemma wlookup_mem (w : List KV) (t : ℚ) (h : ∃ kv ∈ w, kv.1 = t) :
    (t, wlookup w t) ∈ w := by
  obtain ⟨kv0, hkv0, ht⟩ := h
  unfold wlookup
  cases hf : w.find? (fun kv => decide (kv.1 = t)) with
  | none =>
    exfalso
    have hf2 := List.find?_eq_none.mp hf kv0 hkv0
    simp [ht] at hf2
  | some kv =>
    have h1 : kv ∈ w := List.mem_of_find?_eq_some hf
    have h2 := List.find?_some hf
    simp only [decide_eq_true_eq] at h2
    have h3 : (t, kv.2) = kv := by
      rw [← h2]
    rw [h3]
    exact h1

lemma key_eq_of_nodup (w : List KV) (hnd : (w.map Prod.fst).Nodup)
    {kv1 kv2 : KV} (h1 : kv1 ∈ w) (h2 : kv2 ∈ w) (h : kv1.1 = kv2.1) :
    kv1 = kv2 :=
  List.inj_on_of_nodup_map hnd h1 h2 h

/-- Full specification of the `"start"`-direction extension loop: it always
terminates within the iteration bound, a successful result preserves the
segment invariant (points of the waveform, no later than `te`, downward
closed) while meeting the duration, and it fails exactly when even the whole
available prefix of the waveform cannot span `min_duration`. -/
lemma segLoop_start_spec (w : List KV) (hnd : (w.map Prod.fst).Nodup)
    (dur te : ℚ) :
    ∀ (fuel : Nat) (seg : List KV),
      belowCount w (minKey seg) < fuel →
      seg ≠ [] →
      (∀ kv ∈ seg, kv ∈ w ∧ kv.1 ≤ te) →
      (∀ kv ∈ w, minKey seg ≤ kv.1 → kv.1 ≤ te → kv ∈ seg) →
      ∃ res, segLoop w dur "start" fuel seg = some res
        ∧ (∀ seg2, res = some seg2 →
            seg2 ≠ []
            ∧ (∀ kv ∈ seg2, kv ∈ w ∧ kv.1 ≤ te)
            ∧ (∀ kv ∈ w, minKey seg2 ≤ kv.1 → kv.1 ≤ te → kv ∈ seg2)
            ∧ minKey seg2 ≤ minKey seg
            ∧ maxKey seg2 = maxKey seg
            ∧ dur ≤ maxKey seg2 - minKey seg2)
        ∧ (res = none ↔
            maxKey seg - minKey (w.filter (fun kv => decide (kv.1 ≤ te))) < dur) := by
  intro fuel
  induction fuel with
  | zero =>
    intro seg h _ _ _
    exact absurd h (Nat.not_lt_zero _)
  | succ n ih =>
    intro seg hcnt hne hmem hclo
    obtain ⟨kv0, hkv0s, hkv0min⟩ := minKey_mem seg hne
    have hkv0w : kv0 ∈ w ∧ kv0.1 ≤ te := hmem kv0 hkv0s
    have hkv0f : kv0 ∈ w.filter (fun kv => decide (kv.1 ≤ te)) :=
      mem_filter_kv.mpr hkv0w
    have hfne : w.filter (fun kv => decide (kv.1 ≤ te)) ≠ [] :=
      List.ne_nil_of_mem hkv0f
    have hwmin_le : minKey (w.filter (fun kv => decide (kv.1 ≤ te))) ≤ minKey seg := by
      rw [← hkv0min]
      exact minKey_le _ kv0 hkv0f
    have hminte : minKey seg ≤ te := by
      rw [← hkv0min]
      exact hkv0w.2
    simp only [segLoop]
    rw [if_neg hne]
    by_cases hspan : maxKey seg - minKey seg < dur
    · rw [if_pos hspan]
      simp only [if_true]
      by_cases hearlier : w.filter (fun kv => decide (kv.1 < minKey seg)) = []
      · rw [if_pos hearlier]
        refine ⟨none, rfl, ?_, ?_⟩
        · intro seg2 h; cases h
        · constructor
          · intro _
            have hge : minKey seg ≤ minKey (w.filter (fun kv => decide (kv.1 ≤ te))) := by
              obtain ⟨kvm, hkvmf, hkvm⟩ := minKey_mem _ hfne
              rw [← hkvm]
              have hkvmw := mem_filter_kv.mp hkvmf
              by_contra hlt
              push_neg at hlt
              have hkvm2 : kvm ∈ w.filter (fun kv => decide (kv.1 < minKey seg)) :=
                mem_filter_kv.mpr ⟨hkvmw.1, hlt⟩
              rw [hearlier] at hkvm2
              cases hkvm2
            have heqm : minKey (w.filter (fun kv => decide (kv.1 ≤ te))) = minKey seg :=
              le_antisymm hwmin_le hge
            rw [heqm]
            exact hspan
          · intro _; rfl
      · rw [if_neg hearlier]
        obtain ⟨kvE, hkvE, hkvE1⟩ :=
          maxKey_mem (w.filter (fun kv => decide (kv.1 < minKey seg))) hearlier
        have hkvEw : kvE ∈ w ∧ kvE.1 < minKey seg := mem_filter_kv.mp hkvE
        set ne0 := maxKey (w.filter (fun kv => decide (kv.1 < minKey seg))) with hne0
        have hlt : ne0 < minKey seg := by
          rw [← hkvE1]
          exact hkvEw.2
        have hpairw : (ne0, wlookup w ne0) ∈ w :=
          wlookup_mem w ne0 ⟨kvE, hkvEw.1, hkvE1⟩
        have hpairte : ne0 ≤ te := le_trans (le_of_lt hlt) hminte
        have hne2 : seg ++ [(ne0, wlookup w ne0)] ≠ [] := by simp
        have hmem2 : ∀ kv ∈ seg ++ [(ne0, wlookup w ne0)], kv ∈ w ∧ kv.1 ≤ te := by
          intro kv hkv
          rcases List.mem_append.mp hkv with h | h
          · exact hmem kv h
          · have hkvp : kv = (ne0, wlookup w ne0) := by simpa using h
            rw [hkvp]
            exact ⟨hpairw, hpairte⟩
        have hmin2 : minKey (seg ++ [(ne0, wlookup w ne0)]) = ne0 := by
          rw [minKey_append_single seg _ hne]
          exact min_eq_right (le_of_lt hlt)
        have hmax2 : maxKey (seg ++ [(ne0, wlookup w ne0)]) = maxKey seg := by
          rw [maxKey_append_single seg _ hne]
          exact max_eq_left (le_trans (le_of_lt hlt) (minKey_le_maxKey seg hne))
        have hclo2 : ∀ kv ∈ w, minKey (seg ++ [(ne0, wlookup w ne0)]) ≤ kv.1 →
            kv.1 ≤ te → kv ∈ seg ++ [(ne0, wlookup w ne0)] := by
          intro kv hkvw hge hle
          rw [hmin2] at hge
          by_cases hcase : minKey seg ≤ kv.1
          · exact List.mem_append_left _ (hclo kv hkvw hcase hle)
          · push_neg at hcase
            have hkvE2 : kv ∈ w.filter (fun kv => decide (kv.1 < minKey seg)) :=
              mem_filter_kv.mpr ⟨hkvw, hcase⟩
            have hle0 : kv.1 ≤ ne0 := le_maxKey _ kv hkvE2
            have hkv1 : kv.1 = ne0 := le_antisymm hle0 hge
            have hkvp : kv = (ne0, wlookup w ne0) :=
              key_eq_of_nodup w hnd hkvw hpairw (by rw [hkv1])
            rw [hkvp]
            exact List.mem_append_right _ (by simp)
        have hcnt2 : belowCount w (minKey (seg ++ [(ne0, wlookup w ne0)])) < n := by
          rw [hmin2]
          have hdec : belowCount w ne0 < belowCount w (minKey seg) := by
            apply filter_length_lt w _ _ ?_ kvE hkvEw.1 ?_ ?_
            · intro a _ ha
              simp only [decide_eq_true_eq] at ha ⊢
              exact lt_trans ha hlt
            · simp only [decide_eq_true_eq]
              exact hkvEw.2
            · simp only [decide_eq_false_iff_not, not_lt, hkvE1]
              exact le_refl _
          omega
        obtain ⟨res, heq, hsome, hnone⟩ := ih _ hcnt2 hne2 hmem2 hclo2
        refine ⟨res, heq, ?_, ?_⟩
        · intro seg2 h
          obtain ⟨a1, a2, a3, a4, a5, a6⟩ := hsome seg2 h
          refine ⟨a1, a2, a3, ?_, by rw [a5, hmax2], a6⟩
          rw [hmin2] at a4
          exact le_trans a4 (le_of_lt hlt)
        · rw [hnone, hmax2]
    · rw [if_neg hspan]
      refine ⟨some seg, rfl, ?_, ?_⟩
      · intro seg2 h
        have hss : seg = seg2 := Option.some_inj.mp h
        subst hss
        exact ⟨hne, hmem, hclo, le_refl _, rfl, le_of_not_lt hspan⟩
      · constructor
        · intro h; cases h
        · intro h
          exfalso
          have hd := le_of_not_lt hspan
          linarith

/-- C7: with `extend_direction = "start"`, `get_segment_from_waveform`
terminates and returns either `None` or a segment that contains every
waveform point with time in `[target_start, target_end]` plus only earlier
points, whose time span meets `min_duration`; it returns `None` (not an
exception) exactly when no further point in the extension direction is
available before the duration requirement is met — that is, when even the
initial window together with the whole earlier part of the waveform spans
less than `min_duration` (or the initial window is empty). -/
theorem C7_segment_extraction (w : List KV) (ts te dur : ℚ)
    (hnd : (w.map Prod.fst).Nodup) :
    ∃ res, get_segment_from_waveform (some w) ts te dur "start" = some res
      ∧ (∀ seg, res = some seg →
          (∀ kv ∈ w, ts ≤ kv.1 → kv.1 ≤ te → kv ∈ seg)
          ∧ (∀ kv ∈ seg, kv ∈ w ∧ kv.1 ≤ te)
          ∧ seg ≠ []
          ∧ dur ≤ maxKey seg - minKey seg)
      ∧ (res = none ↔ (inRangeW w ts te = []
          ∨ maxKey (inRangeW w ts te)
            - minKey (w.filter (fun kv => decide (kv.1 ≤ te))) < dur)) := by
  rw [get_segment_from_waveform]
  by_cases h0 : inRangeW w ts te = []
  · rw [h0]
    refine ⟨none, ?_, ?_, ?_⟩
    · simp [segLoop]
    · intro seg2 h; cases h
    · simp [h0]
  · have hmem0 : ∀ kv ∈ inRangeW w ts te, kv ∈ w ∧ kv.1 ≤ te := by
      intro kv hkv
      have h := mem_filter_kv.mp hkv
      exact ⟨h.1, h.2.2⟩
    have hclo0 : ∀ kv ∈ w, minKey (inRangeW w ts te) ≤ kv.1 → kv.1 ≤ te →
        kv ∈ inRangeW w ts te := by
      intro kv hkvw hge hle
      obtain ⟨kv0, hkv0, hkv0m⟩ := minKey_mem _ h0
      have h1 := mem_filter_kv.mp hkv0
      have hts : ts ≤ minKey (inRangeW w ts te) := by
        rw [← hkv0m]
        exact h1.2.1
      exact mem_filter_kv.mpr ⟨hkvw, le_trans hts hge, hle⟩
    have hcnt0 : belowCount w (minKey (inRangeW w ts te)) < w.length + 1 := by
      have h := List.length_filter_le (fun kv => decide (kv.1 < minKey (inRangeW w ts te))) w
      unfold belowCount
      omega
    obtain ⟨res, heq, hsome, hnone⟩ :=
      segLoop_start_spec w hnd dur te (w.length + 1) (inRangeW w ts te)
        hcnt0 h0 hmem0 hclo0
    refine ⟨res, heq, ?_, ?_⟩
    · intro seg hres
      obtain ⟨a1, a2, a3, a4, a5, a6⟩ := hsome seg hres
      refine ⟨?_, a2, a1, a6⟩
      intro kv hkvw hts hte
      apply a3 kv hkvw ?_ hte
      have h := minKey_le (inRangeW w ts te) kv (mem_filter_kv.mpr ⟨hkvw, hts, hte⟩)
      exact le_trans a4 h
    · rw [hnone]
      constructor
      · intro h; exact Or.inr h
      · rintro (h | h)
        · exact absurd h h0
        · exact h

/-- Witness for C7 at the two-point waveform `{0: 7, 3: 8}` with target
window `[0, 3]` and minimum duration 3. -/
theorem C7_segment_extraction_witness :
    ∃ res, get_segment_from_waveform (some [((0 : ℚ), (7 : ℚ)), (3, 8)]) 0 3 3 "start"
        = some res
      ∧ (∀ seg, res = some seg →
          (∀ kv ∈ [((0 : ℚ), (7 : ℚ)), (3, 8)], (0 : ℚ) ≤ kv.1 → kv.1 ≤ 3 → kv ∈ seg)
          ∧ (∀ kv ∈ seg, kv ∈ [((0 : ℚ), (7 : ℚ)), (3, 8)] ∧ kv.1 ≤ 3)
          ∧ seg ≠ []
          ∧ (3 : ℚ) ≤ maxKey seg - minKey seg)
      ∧ (res = none ↔ (inRangeW [((0 : ℚ), (7 : ℚ)), (3, 8)] 0 3 = []
          ∨ maxKey (inRangeW [((0 : ℚ), (7 : ℚ)), (3, 8)] 0 3)
            - minKey ([((0 : ℚ), (7 : ℚ)), (3, 8)].filter
                (fun kv => decide (kv.1 ≤ (3 : ℚ)))) < 3)) :=
  C7_segment_extraction [((0 : ℚ), (7 : ℚ)), (3, 8)] 0 3 3
    (by norm_num [List.nodup_cons])

/-- C9: the serial implementation (`let_go.find_time_regions_below_letgo`)
and the parallel implementation (`letgo_analyzer.find_time_regions_below_letgo`
at STRICT and the default standard version) do not return the same regions:
on a constant 3 mA current waveform `{0: 0.003, 3: 0.003}` with
`min_window_duration = 3`, the parallel search returns the region `(0, 3)`
while the serial one raises `TypeError` — its line
`new_region = (min(segment.keys(), max(segment.keys())))` compares a
`dict_keys` view against a float whenever a window passes, so the serial
variant can never report a passing region. -/
theorem C9_serial_parallel_divergence :
    LetGo.find_time_regions_below_letgo (some [((0 : ℚ), (3 : ℚ)/1000), (3, 3/1000)])
        none none none 3 = .error .typeError
    ∧ find_time_regions_below_letgo (some [((0 : ℚ), (3 : ℚ)/1000), (3, 3/1000)])
        none none none 3 (some .strict) (some .ul1400_1_issue_1) = [(0, 3)] := by
  have hseg : get_segment_from_waveform (some [((0:ℚ),(3:ℚ)/1000), (3,3/1000)]) 0 3 3 "start"
      = some (some [(0,3/1000), (3,3/1000)]) := by
    have h1 : inRangeW [((0:ℚ),(3:ℚ)/1000), (3,3/1000)] 0 3 = [(0,3/1000), (3,3/1000)] := by
      norm_num [inRangeW, List.filter]
    rw [get_segment_from_waveform, h1, segLoop]
    norm_num [minKey, maxKey, listMin, listMax]
    exact fun h => absurd h (by simp)
  constructor
  · have hpass : LetGo.findPass "current" [((0:ℚ),(3:ℚ)/1000), (3,3/1000)] none none 3
        = .error .typeError := by
      rw [LetGo.findPass]
      norm_num [maxKey, minKey, listMax, listMin]
      rw [LetGo.serialLoop]
      norm_num [hseg, LetGo.is_below_letgo, LetGo.is_current_below_letgo, leFiveSqrtTwo,
        listMax]
    simp [LetGo.find_time_regions_below_letgo, hpass]
  · have hana : analyze_segment "current" [((0:ℚ),(3:ℚ)/1000), (3,3/1000)] 0 3 3 none
        (some .strict) (some .ul1400_1_issue_1) = .ok (some (0, 3)) := by
      rw [analyze_segment, hseg]
      norm_num [is_below_letgo, is_current_below_letgo, leFiveSqrtTwo, listMax,
        minKey, maxKey, listMin, listMax]
      simp
      norm_num
    have hpass : passRegions "current" [((0:ℚ),(3:ℚ)/1000), (3,3/1000)] none none 3
        (some .strict) (some .ul1400_1_issue_1) = [(0, 3)] := by
      rw [passRegions]
      norm_num [minKey, listMin, List.filter, List.filterMap, hana, isErr]
    simp [find_time_regions_below_letgo, hpass]
    norm_num [merge_regions, mergeLoop, findMergeable, findUnionPartner]

/-- A waveform pass contributes nothing when its span, measured against the
effective floor time, is below the window duration: no candidate target time
exists at all. -/
lemma passRegions_empty (mt : String) (w : List KV) (env : Option String)
    (st : Option ℚ) (dur : ℚ) (interp : Option Interpretation)
    (sv : Option StandardVersion)
    (hne : w ≠ []) (hspan : maxKey w - st.getD (minKey w) < dur) :
    passRegions mt w env st dur interp sv = [] := by
  unfold passRegions
  have htargets : (w.map Prod.fst).filter
      (fun t => decide (st.getD (minKey w) ≤ t - dur)) = [] := by
    rw [List.filter_eq_nil_iff]
    intro t ht
    obtain ⟨kv, hkv, hkv1⟩ := List.mem_map.mp ht
    have hmax : t ≤ maxKey w := by
      rw [← hkv1]
      exact le_maxKey w kv hkv
    simp only [decide_eq_true_eq, not_le]
    linarith
  simp [passRegions, htargets]

/-- C8: whenever each supplied waveform's total time span relative to the
effective floor time (the caller's `start_time`, else the waveform's minimum
time) is smaller than `min_window_duration`, the parallel
`find_time_regions_below_letgo` returns the empty region list and raises no
error: no candidate end time `t` satisfies `t - min_window_duration ≥ floor`,
so no window is ever evaluated. -/
theorem C8_insufficient_span (cw vw : Option (List KV)) (env : Option String)
    (st : Option ℚ) (dur : ℚ) (interp : Option Interpretation)
    (sv : Option StandardVersion)
    (hc : ∀ w, cw = some w → w ≠ [] ∧ maxKey w - st.getD (minKey w) < dur)
    (hv : ∀ w, vw = some w → w ≠ [] ∧ maxKey w - st.getD (minKey w) < dur) :
    find_time_regions_below_letgo cw vw env st dur interp sv = [] := by
  have hc2 : ∀ w, cw = some w → passRegions "current" w env st dur interp sv = [] := by
    intro w h
    obtain ⟨h1, h2⟩ := hc w h
    exact passRegions_empty "current" w env st dur interp sv h1 h2
  have hv2 : ∀ w, vw = some w → passRegions "voltage" w env st dur interp sv = [] := by
    intro w h
    obtain ⟨h1, h2⟩ := hv w h
    exact passRegions_empty "voltage" w env st dur interp sv h1 h2
  cases cw with
  | none =>
    cases vw with
    | none => rfl
    | some w2 => simp [find_time_regions_below_letgo, hv2 w2 rfl, merge_regions_nil]
  | some w1 =>
    cases vw with
    | none => simp [find_time_regions_below_letgo, hc2 w1 rfl, merge_regions_nil]
    | some w2 =>
      simp [find_time_regions_below_letgo, hc2 w1 rfl, hv2 w2 rfl, merge_regions_nil]

/-- Witness for C8 at a 1-second waveform evaluated with a 3-second window. -/
theorem C8_insufficient_span_witness :
    find_time_regions_below_letgo (some [((0 : ℚ), (3 : ℚ)/1000), (1, 3/1000)]) none
      none none 3 (some .strict) (some .ul1400_1_issue_1) = [] := by
  apply C8_insufficient_span
  · intro w h
    have hw : [((0 : ℚ), (3 : ℚ)/1000), (1, 3/1000)] = w := Option.some_inj.mp h
    subst hw
    refine ⟨by simp, ?_⟩
    norm_num [maxKey, minKey, listMax, listMin]
  · intro w h
    cases h

/-- Witness for C6 at the adjacent pair `(0,5)`, `(5,10)`. -/
theorem C6_unionize_spec_witness :
    (unionize_regions ((0 : ℚ), (5 : ℚ)) (5, 10) = none ↔ ((5 : ℚ) < 5 ∨ (10 : ℚ) < 0))
    ∧ (¬ ((5 : ℚ) < 5 ∨ (10 : ℚ) < 0) →
        unionize_regions ((0 : ℚ), (5 : ℚ)) (5, 10)
          = some (min (0 : ℚ) 5, max (5 : ℚ) 10))
    ∧ (((5 : ℚ) = 5 ∨ (10 : ℚ) = 0) →
        unionize_regions ((0 : ℚ), (5 : ℚ)) (5, 10)
          = some (min (0 : ℚ) 5, max (5 : ℚ) 10)) :=
  C6_unionize_spec ((0 : ℚ), (5 : ℚ)) (5, 10) (by norm_num) (by norm_num)

end UL1400
